import Mathlib

/-!
# A shallow embedding of `scripts/workspace_statistics.py`

The script computes workspace disk-usage and object-count statistics from a
document store.  This file embeds its data model and operations as executable
Lean definitions and proves the specification's claims about them.

Conventions of the embedding:
* Mongo collections become lists of records; a `find` with a filter document
  becomes `List.filter`, in cursor order.
* Python `defaultdict(int)`-style nested accumulators become total functions
  with zero defaults; a dict keyed by strings whose entries may be absent
  becomes an `Option`-valued function or an association list.
* Fallible Python code (raising `TypeError` / `ValueError` / `KeyError`,
  or calling `sys.exit`) returns `Except`.
-/

namespace WorkspaceStats

/-- `LIMIT`: chunk size for paging through object ids. -/
def LIMIT : Nat := 10000

/-- `WS_META_INC`: workspace metadata keys copied into the workspace index. -/
def WS_META_INC : List String := ["is_temporary", "narrative", "narrative_nice_name"]

/-- `OBJ_META_INC`: version metadata keys copied into the object listing. -/
def OBJ_META_INC : List String := ["methods", "job_info"]

/-- Visibility of a workspace: the values `'pub'` / `'priv'` stored under the
`pub` key of a workspace index entry. -/
inductive Vis where
  | pub
  | priv
deriving DecidableEq, Repr

/-- The deletion-state keys `'del'` / `'std'` used by every accumulator. -/
inductive DelState where
  | del
  | std
deriving DecidableEq, Repr

/-- `deleted = DELETED if o[DELETED] else NOT_DEL` (line 316). -/
def delStateOf (b : Bool) : DelState := if b then .del else .std

/-- A `{cnt, byte}` leaf of the accumulators; `defaultdict(int)` makes the
zero pair the default value. -/
structure Counts where
  cnt : Nat
  byte : Nat
deriving DecidableEq, Repr

/-- Python exceptions that the script can raise (and does not catch). -/
inductive PyErr where
  | typeError
  | valueError
  | keyError
deriving DecidableEq, Repr

/-- A document of the `workspaceACLs` collection (fields `id`, `user`, `perm`). -/
structure AclRec where
  id : Nat
  user : String
  perm : Nat
deriving DecidableEq, Repr

/-- A document of the `workspaces` collection, restricted to the projection
`[WS_ID, WS_OBJ_CNT, WS_OWNER, WS_DELETED, NAME, WS_META]` of line 239.
The `meta` field is optional (`if WS_META in ws`, line 258); a metadata
document is a list of `{k: ..., v: ...}` pairs. -/
structure WsRec where
  ws : Nat
  numObj : Nat
  owner : String
  del : Bool
  name : String
  meta : Option (List (String × String))
deriving DecidableEq, Repr

/-- A document of the `workspaceObjects` collection, restricted to the
projection `[WS_ID, OBJ_ID, WS_DELETED, OBJ_NAME, OBJ_NUMVER]` of line 367. -/
structure ObjRec where
  ws : Nat
  id : Nat
  del : Bool
  name : String
  numver : Nat
deriving DecidableEq, Repr

/-- A document of the `workspaceObjVersions` collection.  `mongoId` is
`str(v['_id'])` (the `_id` is always returned by Mongo even though it is not
in the projection of line 306). `savedate` holds the ISO rendering of the
save date.  The `del` field is present on stored documents but is *not* in
the projection of line 306, so the script never reads it; it is kept here to
express that per-version deletion flags cannot influence any result. -/
structure VerRec where
  mongoId : String
  ws : Nat
  objId : Nat
  ver : Nat
  size : Nat
  type : String
  savedby : String
  savedate : String
  del : Bool
  meta : Option (List (String × String))
deriving DecidableEq, Repr

/-- The source Mongo database: the four collections the script reads. -/
structure Store where
  workspaces : List WsRec
  acls : List AclRec
  objects : List ObjRec
  versions : List VerRec
deriving DecidableEq, Repr

/-- The per-deletion-state `{cnt, byte}` totals that `process_object_versions`
accumulates *into the workspace index entries themselves* (lines 319-320):
`workspaces[ws][deleted][OBJ_CNT] += 1` etc.  The inner `defaultdict(int)`
gives all four numbers a zero default. -/
structure DelStats where
  delCnt : Nat
  delByte : Nat
  stdCnt : Nat
  stdByte : Nat
deriving DecidableEq, Repr

def DelStats.zero : DelStats := ⟨0, 0, 0, 0⟩

def DelStats.bump (s : DelStats) (d : DelState) (sz : Nat) : DelStats :=
  match d with
  | .del => { s with delCnt := s.delCnt + 1, delByte := s.delByte + sz }
  | .std => { s with stdCnt := s.stdCnt + 1, stdByte := s.stdByte + sz }

/-- An entry of the workspace index built by `process_workspaces`
(lines 252-262): the keys `shd`, `shdwith`, `pub`, `numObj`, `owner`,
`name`, `meta`, plus the `del`/`std` totals added later by the aggregation
pass (initially absent, i.e. zero). -/
structure WsEnt where
  shd : Nat
  shdwith : List (String × Nat)
  pub : Vis
  numObj : Nat
  owner : String
  name : String
  meta : List (String × String)
  stats : DelStats
deriving DecidableEq, Repr

/-- `convert_mongo_meta_to_dict` (lines 226-230) builds a dict from the
`{k, v}` pair list, later assignments winning; here: lookup of a key in that
dict. -/
def convert_mongo_meta_to_dict (m : List (String × String)) (k : String) : Option String :=
  m.reverse.lookup k

/-- Assignment `d[k] = v` on an insertion-ordered string-keyed dict. -/
def dictInsert (d : List (String × Nat)) (k : String) (v : Nat) : List (String × Nat) :=
  if (d.lookup k).isSome then d.map (fun p => if p.1 = k then (k, v) else p) else d ++ [(k, v)]

/-- The body of the `process_workspaces` loop (lines 242-262) for one
workspace document: one pass over the workspace's ACL records builds the
shared-user dict (owner and `'*'` excluded) and decides visibility
(`pub = PUBLIC` as soon as a `'*'` grant is seen). -/
def entry_for (acls : List AclRec) (w : WsRec) : WsEnt :=
  let wsacls := acls.filter (fun a => a.id = w.ws)
  let up := wsacls.foldl
    (fun (up : List (String × Nat) × Vis) a =>
      (if a.user ≠ w.owner ∧ a.user ≠ "*" then dictInsert up.1 a.user a.perm else up.1,
       if a.user = "*" then Vis.pub else up.2))
    ([], Vis.priv)
  { shd := up.1.length
    shdwith := up.1
    pub := up.2
    numObj := w.numObj
    owner := w.owner
    name := w.name
    meta := match w.meta with
      | none => []
      | some m => WS_META_INC.filterMap
          (fun k => (convert_mongo_meta_to_dict m k).map (fun v => (k, v)))
    stats := DelStats.zero }

/-- `process_workspaces` (lines 234-263): the workspace index, keyed by
workspace id, in cursor order.  (Workspace ids are the collection's primary
key, so they are distinct in any real store.) -/
def process_workspaces (db : Store) : List (Nat × WsEnt) :=
  db.workspaces.map (fun w => (w.ws, entry_for db.acls w))

/-- `v[OBJ_TYPE].split('-')[0]` (line 321): the module prefix of a type. -/
def type_module (t : String) : String := (t.splitOn "-").headD ""

/-- Value of one hex digit, as accepted by Python's `int(_, 16)`. -/
def hexDigitVal (c : Char) : Option Nat :=
  if '0' ≤ c ∧ c ≤ '9' then some (c.toNat - '0'.toNat)
  else if 'a' ≤ c ∧ c ≤ 'f' then some (c.toNat - 'a'.toNat + 10)
  else if 'A' ≤ c ∧ c ≤ 'F' then some (c.toNat - 'A'.toNat + 10)
  else none

def hexValAux : Nat → List Char → Option Nat
  | acc, [] => some acc
  | acc, c :: cs =>
    match hexDigitVal c with
    | none => none
    | some d => hexValAux (acc * 16 + d) cs

/-- `int(s, 16)` for a plain big-endian hex string: `none` models the
`ValueError` raised on an empty or non-hex string. -/
def hexNat (s : String) : Option Nat :=
  match s.data with
  | [] => none
  | l => hexValAux 0 l

/-- Gregorian (year, month) of a day count since the Unix epoch, the civil
calendar computation behind `datetime.date.fromtimestamp` for nonnegative
timestamps. -/
def civilFromDays (days : Nat) : Nat × Nat :=
  let z := days + 719468
  let era := z / 146097
  let doe := z % 146097
  let yoe := (doe - doe / 1460 + doe / 36524 - doe / 146096) / 365
  let y := yoe + era * 400
  let doy := doe - (365 * yoe + yoe / 4 - yoe / 100)
  let mp := (5 * doy + 2) / 153
  let m := if mp < 10 then mp + 3 else mp - 9
  (if m ≤ 2 then y + 1 else y, m)

/-- `date.fromtimestamp(t).strftime('%Y%m')` as the number `year*100+month`
(the decimal digits of this number are exactly the `YYYYMM` string). -/
def yyyymm (t : Nat) : Nat :=
  let ym := civilFromDays (t / 86400)
  ym.1 * 100 + ym.2

/-- Month bucket of a version (lines 322-324): `int(str(v['_id'])[0:8], 16)`
read as a Unix timestamp and rendered as `YYYYMM`.  `none` models the
`ValueError` of `int` on a malformed id. -/
def month_of (v : VerRec) : Option Nat :=
  (hexNat (v.mongoId.take 8)).map yyyymm

/-- A value of the object-listing dict `objlist` (lines 271-284). -/
structure ObjEntry where
  del : Bool
  name : String
  savedby : String
  ver : Nat
  type : String
  savedate : String
  meta : Option (List (String × String))
deriving DecidableEq, Repr

/-- The entry written by `update_object_list` for object `o` and version `v`
(lines 271-284), including the restricted metadata set afterwards when the
version carries metadata. -/
def mkObjEntry (o : ObjRec) (v : VerRec) : ObjEntry :=
  { del := o.del
    name := o.name
    savedby := v.savedby
    ver := v.ver
    type := v.type
    savedate := v.savedate
    meta := v.meta.map (fun m => OBJ_META_INC.filterMap
      (fun k => (convert_mongo_meta_to_dict m k).map (fun vv => (k, vv)))) }

/-- The composite key `'ws.' + str(ws) + '.obj.' + str(objid)` (line 267). -/
def obj_kbid (wsid objid : Nat) : String :=
  "ws." ++ toString wsid ++ ".obj." ++ toString objid

/-- `update_object_list` (lines 266-284): keep the existing entry when its
version number is strictly greater than the incoming one, otherwise
overwrite. -/
def update_object_list (objlist : String → Option ObjEntry) (o : ObjRec) (v : VerRec) :
    String → Option ObjEntry :=
  let key := obj_kbid v.ws v.objId
  match objlist key with
  | some e =>
    if e.ver > v.ver then objlist
    else fun k => if k = key then some (mkObjEntry o v) else objlist k
  | none => fun k => if k = key then some (mkObjEntry o v) else objlist k

def bumpCounts (c : Counts) (sz : Nat) : Counts := ⟨c.cnt + 1, c.byte + sz⟩

/-- `userdata[u][p][d][OBJ_CNT] += 1; userdata[u][p][d][BYTES] += sz`. -/
def bump3 (f : String → Vis → DelState → Counts) (u : String) (p : Vis) (d : DelState)
    (sz : Nat) : String → Vis → DelState → Counts :=
  fun u' p' d' => if u' = u ∧ p' = p ∧ d' = d then bumpCounts (f u p d) sz else f u' p' d'

/-- `typedata[u][t][p][d][OBJ_CNT] += 1; ...` -/
def bump4 (f : String → String → Vis → DelState → Counts) (u t : String) (p : Vis)
    (d : DelState) (sz : Nat) : String → String → Vis → DelState → Counts :=
  fun u' t' p' d' =>
    if u' = u ∧ t' = t ∧ p' = p ∧ d' = d then bumpCounts (f u t p d) sz else f u' t' p' d'

/-- `bymonth[month][p][d][OBJ_CNT] += 1; ...` -/
def bumpM (f : Nat → Vis → DelState → Counts) (m : Nat) (p : Vis) (d : DelState)
    (sz : Nat) : Nat → Vis → DelState → Counts :=
  fun m' p' d' => if m' = m ∧ p' = p ∧ d' = d then bumpCounts (f m p d) sz else f m' p' d'

/-- `workspaces[ws][deleted][OBJ_CNT] += 1; workspaces[ws][deleted][BYTES] += sz`
(lines 319-320): bump the totals stored inside the index entry for `ws`. -/
def bumpEnt (e : WsEnt) (d : DelState) (sz : Nat) : WsEnt :=
  { e with stats := e.stats.bump d sz }

def updIndex (l : List (Nat × WsEnt)) (w : Nat) (d : DelState) (sz : Nat) :
    List (Nat × WsEnt) :=
  l.map (fun p => if p.1 = w then (p.1, bumpEnt p.2 d sz) else p)

/-- Dict lookup in the workspace index (unique keys, first match). -/
def lookupIndex : List (Nat × WsEnt) → Nat → Option WsEnt
  | [], _ => none
  | p :: rest, w => if p.1 = w then some p.2 else lookupIndex rest w

/-- The mutable state threaded through the aggregation pass: the four
accumulators of `process_objects` (lines 338-348) plus the workspace index,
which lines 319-320 also mutate. -/
structure AggState where
  userdata : String → Vis → DelState → Counts
  typedata : String → String → Vis → DelState → Counts
  bymonth : Nat → Vis → DelState → Counts
  objlist : String → Option ObjEntry
  workspaces : List (Nat × WsEnt)

/-- `t in incl_types or '*' in incl_types` (line 327); `t in None` raises
`TypeError`. -/
def elem_or_star (t : String) : Option (List String) → Except PyErr Bool
  | none => .error .typeError
  | some s => .ok (decide (t ∈ s) || decide ("*" ∈ s))

/-- `t in list_types` (line 330); `t in None` raises `TypeError`. -/
def elem_chk (t : String) : Option (List String) → Except PyErr Bool
  | none => .error .typeError
  | some s => .ok (decide (t ∈ s))

/-- The dict `id2obj` built at lines 294-296: `id2obj[o[OBJ_ID]] = o` for each
object of the page, later objects winning. -/
def id2obj (objects : List ObjRec) (i : Nat) : Option ObjRec :=
  (objects.filter (fun o => o.id = i)).getLast?

/-- The body of the version loop of `process_object_versions`
(lines 309-331) for one version document.  `ownerpub` is the
`(wsowner, wspub)` pair looked up before the loop; it is `none` when `ws` is
absent from the index, in which case using it as a dict key raises
`TypeError` (an empty `defaultdict` is unhashable) at the first counted
version. -/
def procVer (incl_types list_types : Option (List String)) (only_latest_ver : Bool)
    (i2o : Nat → Option ObjRec) (ws : Nat) (ownerpub : Option (String × Vis))
    (acc : AggState × Nat) (v : VerRec) : Except PyErr (AggState × Nat) :=
  match i2o v.objId with
  | none => .ok acc  -- new object was made just now in ws (line 310)
  | some o =>
    if only_latest_ver ∧ v.ver ≠ o.numver then .ok acc  -- line 313
    else
      match ownerpub with
      | none => .error .typeError
      | some wsop =>
        let st := acc.1
        let deleted := delStateOf o.del
        let userdata := bump3 st.userdata wsop.1 wsop.2 deleted v.size
        let workspaces := updIndex st.workspaces ws deleted v.size
        let t := type_module v.type
        match month_of v with
        | none => .error .valueError
        | some month =>
          let bymonth := bumpM st.bymonth month wsop.2 deleted v.size
          match elem_or_star t incl_types with
          | .error e => .error e
          | .ok bi =>
            let typedata :=
              if bi then bump4 st.typedata wsop.1 t wsop.2 deleted v.size else st.typedata
            match elem_chk t list_types with
            | .error e => .error e
            | .ok bl =>
              let objlist := if bl then update_object_list st.objlist o v else st.objlist
              .ok (⟨userdata, typedata, bymonth, objlist, workspaces⟩, acc.2 + 1)

/-- The `for v in res` loop of `process_object_versions` (lines 309-331). -/
def procVersList (incl_types list_types : Option (List String)) (only_latest_ver : Bool)
    (i2o : Nat → Option ObjRec) (ws : Nat) (ownerpub : Option (String × Vis)) :
    AggState × Nat → List VerRec → Except PyErr (AggState × Nat)
  | acc, [] => .ok acc
  | acc, v :: rest =>
    match procVer incl_types list_types only_latest_ver i2o ws ownerpub acc v with
    | .error e => .error e
    | .ok acc' =>
      procVersList incl_types list_types only_latest_ver i2o ws ownerpub acc' rest

/-- `process_object_versions` (lines 288-332).  All objects of the page are
from the same workspace; `ws` is read from the loop variable left over from
building `id2obj` (line 300), i.e. from the last object.  An empty page
returns immediately (line 297).  The version query of lines 304-307 becomes a
filter over the versions collection. -/
def process_object_versions (db : Store) (st : AggState) (objects : List ObjRec)
    (incl_types list_types : Option (List String)) (start_id end_id : Nat)
    (only_latest_ver : Bool) : Except PyErr (AggState × Nat) :=
  match objects.getLast? with
  | none => .ok (st, 0)
  | some olast =>
    let ws := olast.ws
    let ownerpub := (lookupIndex st.workspaces ws).map (fun e => (e.owner, e.pub))
    procVersList incl_types list_types only_latest_ver (id2obj objects) ws ownerpub (st, 0)
      (db.versions.filter (fun v => v.ws = ws ∧ start_id < v.objId ∧ v.objId ≤ end_id))

/-- Python 2 `xrange(start, stop, step)` for a positive step. -/
def xrangeList (start stop step : Nat) : List Nat :=
  (List.range ((stop - start + (step - 1)) / step)).map (fun i => start + step * i)

/-- `xrange(LIMIT, wsobjcount + LIMIT, LIMIT)` (line 360): the page limits of
one workspace. -/
def pageLims (wsobjcount : Nat) : List Nat := xrangeList LIMIT (wsobjcount + LIMIT) LIMIT

/-- The page loop of `process_objects` (lines 360-374): for each limit,
fetch the object page (query of lines 366-368 as a filter) and process its
versions.  The returned version count is printed only, so it is dropped. -/
def process_pages (db : Store) (wsId : Nat) (incl_types list_types : Option (List String))
    (only_latest_ver : Bool) : AggState → List Nat → Except PyErr AggState
  | st, [] => .ok st
  | st, lim :: rest =>
    let objs := db.objects.filter (fun o => o.ws = wsId ∧ lim - LIMIT < o.id ∧ o.id ≤ lim)
    match process_object_versions db st objs incl_types list_types (lim - LIMIT) lim
        only_latest_ver with
    | .error e => .error e
    | .ok (st', _) => process_pages db wsId incl_types list_types only_latest_ver st' rest

/-- The workspace loop of `process_objects` (lines 350-377).  Iteration is
over the index in insertion order; a workspace in the exclusion set is
skipped entirely (lines 357-359).  `wsobjcount` is the (never mutated)
declared object count of the entry.  The `MAX_WS` testing break is dead code
(`MAX_WS = -1`, so `MAX_WS > 0` is always false) and is omitted. -/
def process_ws_list (db : Store) (exclude_ws : List Nat)
    (incl_types list_types : Option (List String)) (only_latest_ver : Bool) :
    AggState → List (Nat × WsEnt) → Except PyErr AggState
  | st, [] => .ok st
  | st, we :: rest =>
    if we.1 ∈ exclude_ws then
      process_ws_list db exclude_ws incl_types list_types only_latest_ver st rest
    else
      (process_pages db we.1 incl_types list_types only_latest_ver st
          (pageLims we.2.numObj)).bind
        (fun st' =>
          process_ws_list db exclude_ws incl_types list_types only_latest_ver st' rest)

/-- The empty accumulators of lines 338-348 together with the workspace
index. -/
def initState (idx : List (Nat × WsEnt)) : AggState :=
  { userdata := fun _ _ _ => ⟨0, 0⟩
    typedata := fun _ _ _ _ => ⟨0, 0⟩
    bymonth := fun _ _ _ => ⟨0, 0⟩
    objlist := fun _ => none
    workspaces := idx }

/-- `process_objects` (lines 335-378). -/
def process_objects (db : Store) (idx : List (Nat × WsEnt)) (exclude_ws : List Nat)
    (incl_types list_types : Option (List String)) (only_latest_ver : Bool) :
    Except PyErr AggState :=
  process_ws_list db exclude_ws incl_types list_types only_latest_ver (initState idx) idx

/-!
## Instrumentation: the list of counted versions

`countedStep` mirrors the two skip tests of the version loop (lines 310 and
313); a run's counted versions are the versions that pass both, tagged with
the page's workspace id and the object record they were joined to.  The
theorems below relate the accumulators to this list.
-/

/-- The record of one counted version: the page's workspace id, the joined
object record, and the version record. -/
structure CV where
  ws : Nat
  o : ObjRec
  v : VerRec
deriving DecidableEq, Repr

/-- `some` exactly when the version survives the two `continue`s of
lines 310 and 313. -/
def countedStep (only_latest_ver : Bool) (i2o : Nat → Option ObjRec) (ws : Nat)
    (v : VerRec) : Option CV :=
  match i2o v.objId with
  | none => none
  | some o => if only_latest_ver ∧ v.ver ≠ o.numver then none else some ⟨ws, o, v⟩

def countedOfVers (only_latest_ver : Bool) (i2o : Nat → Option ObjRec) (ws : Nat)
    (vl : List VerRec) : List CV :=
  vl.filterMap (countedStep only_latest_ver i2o ws)

/-- Counted versions of one page of `process_object_versions`. -/
def countedOfPage (db : Store) (objects : List ObjRec) (only_latest_ver : Bool)
    (start_id end_id : Nat) : List CV :=
  match objects.getLast? with
  | none => []
  | some olast =>
    countedOfVers only_latest_ver (id2obj objects) olast.ws
      (db.versions.filter
        (fun v => v.ws = olast.ws ∧ start_id < v.objId ∧ v.objId ≤ end_id))

/-- Counted versions of the page loop of one workspace. -/
def countedOfPagesL (db : Store) (wsId : Nat) (only_latest_ver : Bool) :
    List Nat → List CV
  | [] => []
  | lim :: rest =>
    countedOfPage db (db.objects.filter
        (fun o => o.ws = wsId ∧ lim - LIMIT < o.id ∧ o.id ≤ lim))
      only_latest_ver (lim - LIMIT) lim
      ++ countedOfPagesL db wsId only_latest_ver rest

/-- Counted versions of a whole aggregation run. -/
def countedPairs (db : Store) (exclude_ws : List Nat) (only_latest_ver : Bool) :
    List (Nat × WsEnt) → List CV
  | [] => []
  | we :: rest =>
    (if we.1 ∈ exclude_ws then []
     else countedOfPagesL db we.1 only_latest_ver (pageLims we.2.numObj))
      ++ countedPairs db exclude_ws only_latest_ver rest

/-!
## Configuration handling (`get_config`, lines 164-212, and the start of
`main`, lines 418-428)
-/

/-- A value of a `ConfigObj` section: a plain string or a comma list. -/
inductive CfgVal where
  | str (s : String)
  | list (l : List String)
deriving DecidableEq, Repr

/-- Python truthiness of a config value (`''` and `[]` are falsy). -/
def cfgTruthy : CfgVal → Bool
  | .str s => s ≠ ""
  | .list l => l ≠ []

/-- A config file: its path, whether the readability test of line 165
passes, and its parsed sections. -/
structure CfgFile where
  fname : String
  readable : Bool
  sections : List (String × List (String × CfgVal))
deriving DecidableEq, Repr

def CFG_SECTION_SOURCE : String := "SourceMongo"
def CFG_SECTION_TARGET : String := "TargetMongo"
def CFG_HOST : String := "host"
def CFG_PORT : String := "port"
def CFG_DB : String := "db"
def CFG_USER : String := "user"
def CFG_PWD : String := "pwd"
def CFG_TYPES : String := "types"
def CFG_LIST_OBJS : String := "list-objects"
def CFG_EXCLUDE_WS : String := "exclude-ws"

/-- Observable events of a run: a line printed to stdout, a `sys.exit`, and
the `MongoClient` connection attempt of lines 424-425. -/
inductive Ev where
  | print (msg : String)
  | exitCode (n : Nat)
  | connect (host : CfgVal)
deriving DecidableEq, Repr

/-- How `get_config` stops early: a `sys.exit(1)` after a printed message,
or an uncaught Python exception. -/
inductive GcStop where
  | exited (evs : List Ev)
  | raised (e : PyErr)
deriving DecidableEq, Repr

def missingValueEvs (fname secName key : String) : List Ev :=
  [.print ("Missing config value " ++ secName ++ "." ++ key ++ " from file " ++ fname),
   .exitCode 1]

/-- The `for key in (CFG_HOST, CFG_PORT, CFG_DB)` loop of lines 177-182:
`v = co[sec].get(key); if v == '' or v is None: ... sys.exit(1)`. -/
def checkReqValues (fname secName : String) (sec : List (String × CfgVal)) :
    List String → Option (List Ev)
  | [] => none
  | key :: rest =>
    match sec.lookup key with
    | none => some (missingValueEvs fname secName key)
    | some (.str "") => some (missingValueEvs fname secName key)
    | some _ => checkReqValues fname secName sec rest

/-- `co[sec][CFG_PORT] = int(co[sec][CFG_PORT])` with the `ValueError`
handler of lines 183-188.  `String.toInt?` models `int()` on a string; `int`
of a comma list raises an uncaught `TypeError`. -/
def portNum (secName : String) (sec : List (String × CfgVal)) : Except GcStop Int :=
  match sec.lookup CFG_PORT with
  | some (.str p) =>
    match p.toInt? with
    | some n => .ok n
    | none =>
      .error (.exited [.print ("Port " ++ p ++ " is not a valid port number at "
        ++ secName ++ "." ++ CFG_PORT), .exitCode 1])
  | some (.list _) => .error (.raised .typeError)
  | none => .error (.raised .keyError)

/-- One iteration of the `for sec in (s, t)` loop of lines 172-188: section
presence, the three required values, then the port conversion. -/
def checkSection (f : CfgFile) (secName : String) :
    Except GcStop (List (String × CfgVal) × Int) :=
  match f.sections.lookup secName with
  | none =>
    .error (.exited [.print ("Missing config section " ++ secName ++ " from file "
      ++ f.fname), .exitCode 1])
  | some sec =>
    match checkReqValues f.fname secName sec [CFG_HOST, CFG_PORT, CFG_DB] with
    | some evs => .error (.exited evs)
    | none =>
      match portNum secName sec with
      | .error e => .error e
      | .ok n => .ok (sec, n)

/-- `process_optional_key` (lines 157-161): an empty string is normalized to
`None`. -/
def process_optional_key (sec : List (String × CfgVal)) (key : String) : Option CfgVal :=
  match sec.lookup key with
  | some (.str "") => none
  | v => v

/-- One iteration of the user/password loop of lines 189-195. -/
def checkUserPwd (fname secName : String) (sec : List (String × CfgVal)) :
    Except GcStop (Option CfgVal × Option CfgVal) :=
  let u := process_optional_key sec CFG_USER
  let p := process_optional_key sec CFG_PWD
  if u.isSome ∧ p.isNone then
    .error (.exited [.print ("If " ++ CFG_USER ++ " specified, " ++ CFG_PWD
      ++ " must be specified in section " ++ secName ++ " from file " ++ fname),
      .exitCode 1])
  else .ok (u, p)

/-- `process_config_string_list` (lines 215-223): a truthy value becomes a
set of strings, a falsy one becomes `None`; a missing key raises `KeyError`
(`config_section[config_name]` is an unguarded subscript). -/
def process_config_string_list (config_name : String)
    (config_section : List (String × CfgVal)) : Except GcStop (Option (List String)) :=
  match config_section.lookup config_name with
  | none => .error (.raised .keyError)
  | some c =>
    if cfgTruthy c then
      match c with
      | .str s => .ok (some [s])
      | .list l => .ok (some l)
    else .ok none

/-- The `for ws in exclude` loop of lines 205-210: each id must parse as an
integer, else print and exit. -/
def parseExcludeIds : List String → Except GcStop (List Int)
  | [] => .ok []
  | w :: rest =>
    match w.toInt? with
    | none =>
      .error (.exited [.print ("Workspace id " ++ w ++ " must be an integer"),
        .exitCode 1])
    | some n =>
      match parseExcludeIds rest with
      | .error e => .error e
      | .ok l => .ok (n :: l)

/-- Lines 200-211: the exclusion set; a falsy raw value is kept as-is
(modeled as `none`), a single string is wrapped into a one-element list. -/
def processExclude (sec : List (String × CfgVal)) : Except GcStop (Option (List Int)) :=
  match sec.lookup CFG_EXCLUDE_WS with
  | none => .error (.raised .keyError)
  | some ex =>
    if cfgTruthy ex then
      match ex with
      | .str s => (parseExcludeIds [s]).map some
      | .list l => (parseExcludeIds l).map some
    else .ok none

/-- Connection profile of one config section. -/
structure MongoCfg where
  host : CfgVal
  port : Int
  db : CfgVal
  user : Option CfgVal
  pwd : Option CfgVal
deriving DecidableEq, Repr

/-- The source-only configuration values. -/
structure SrcExtra where
  types : Option (List String)
  listObjects : Option (List String)
  excludeWs : Option (List Int)
deriving DecidableEq, Repr

/-- `get_config` (lines 164-212), in program order: readability test, the
per-section checks (source first), the user/password checks, the two
string-list keys, then the exclusion set. -/
def get_config (f : CfgFile) : Except GcStop ((MongoCfg × SrcExtra) × MongoCfg) :=
  if f.readable = false then
    .error (.exited [.print ("Cannot read file " ++ f.fname), .exitCode 1])
  else
    match checkSection f CFG_SECTION_SOURCE with
    | .error e => .error e
    | .ok (ssec, sport) =>
      match checkSection f CFG_SECTION_TARGET with
      | .error e => .error e
      | .ok (tsec, tport) =>
        match checkUserPwd f.fname CFG_SECTION_SOURCE ssec with
        | .error e => .error e
        | .ok (su, sp) =>
          match checkUserPwd f.fname CFG_SECTION_TARGET tsec with
          | .error e => .error e
          | .ok (tu, tp) =>
            match process_config_string_list CFG_TYPES ssec with
            | .error e => .error e
            | .ok tys =>
              match process_config_string_list CFG_LIST_OBJS ssec with
              | .error e => .error e
              | .ok lst =>
                match processExclude ssec with
                | .error e => .error e
                | .ok ex =>
                  match ssec.lookup CFG_HOST, ssec.lookup CFG_DB,
                      tsec.lookup CFG_HOST, tsec.lookup CFG_DB with
                  | some sh, some sdb, some th, some tdb =>
                    .ok ((⟨sh, sport, sdb, su, sp⟩, ⟨tys, lst, ex⟩),
                         ⟨th, tport, tdb, tu, tp⟩)
                  | _, _, _, _ => .error (.raised .keyError)

/-- The observable event prefix of `main` (lines 418-428) for a run with no
output directory: configuration processing, then the `MongoClient`
connection attempt of lines 424-425.  A `sys.exit` truncates the trace; an
uncaught exception aborts with a traceback and no connection.  The store
processing that follows a successful connection is modeled by
`process_workspaces` and `process_objects` above and emits no events that
the configuration-error claims are about. -/
def mainTrace (f : CfgFile) : List Ev :=
  match get_config f with
  | .error (.exited evs) => evs
  | .error (.raised _) => []
  | .ok ((src, _), _) => [.connect src.host]

/-- Owner recorded in the index for a workspace id. -/
def ownerOf (idx : List (Nat × WsEnt)) (w : Nat) : Option String :=
  (lookupIndex idx w).map (fun e => e.owner)

/-- Visibility recorded in the index for a workspace id. -/
def pubOf (idx : List (Nat × WsEnt)) (w : Nat) : Option Vis :=
  (lookupIndex idx w).map (fun e => e.pub)

/-- Count and byte totals of a list of counted versions, added onto a base. -/
def addCV (c : Counts) (l : List CV) : Counts :=
  ⟨c.cnt + l.length, c.byte + (l.map (fun c => c.v.size)).sum⟩

/-- The user-totals key test of claim C1, as a filter predicate on counted
versions: the workspace's owner and visibility in the index, and the
deletion state derived from the *object's* deleted flag. -/
def cvKey (idx : List (Nat × WsEnt)) (u : String) (p : Vis) (d : DelState) (c : CV) : Bool :=
  decide (ownerOf idx c.ws = some u) && decide (pubOf idx c.ws = some p) &&
    decide (delStateOf c.o.del = d)

/-- The same key test phrased against the `(wsowner, wspub)` pair a page
looked up before its version loop. -/
def opKey (op : Option (String × Vis)) (u : String) (p : Vis) (d : DelState) (c : CV) : Bool :=
  decide (op = some (u, p)) && decide (delStateOf c.o.del = d)

/-- The builder-written part of a workspace index entry: every key written by
`process_workspaces` (everything except the `del`/`std` totals that the
aggregation pass adds). -/
def WsEnt.builder (e : WsEnt) :
    Nat × List (String × Nat) × Vis × Nat × String × String × List (String × String) :=
  (e.shd, e.shdwith, e.pub, e.numObj, e.owner, e.name, e.meta)

/-- The builder-written view of the whole workspace index. -/
def bv (l : List (Nat × WsEnt)) :
    List (Nat × (Nat × List (String × Nat) × Vis × Nat × String × String
      × List (String × String))) :=
  l.map (fun p => (p.1, p.2.builder))

lemma builder_bumpEnt (e : WsEnt) (d : DelState) (sz : Nat) :
    (bumpEnt e d sz).builder = e.builder := rfl

lemma bv_updIndex (l : List (Nat × WsEnt)) (w : Nat) (d : DelState) (sz : Nat) :
    bv (updIndex l w d sz) = bv l := by
  simp only [bv, updIndex, List.map_map]
  apply List.map_congr_left
  intro p _
  by_cases h : p.1 = w <;> simp [h, builder_bumpEnt]

lemma lookupIndex_map_proj {l₁ l₂ : List (Nat × WsEnt)} (h : bv l₁ = bv l₂) (w : Nat) :
    (lookupIndex l₁ w).map (fun e => (e.owner, e.pub)) =
      (lookupIndex l₂ w).map (fun e => (e.owner, e.pub)) := by
  induction l₁ generalizing l₂ with
  | nil =>
    cases l₂ with
    | nil => rfl
    | cons q t => simp [bv] at h
  | cons p t ih =>
    cases l₂ with
    | nil => simp [bv] at h
    | cons q t₂ =>
      simp only [bv, List.map_cons, List.cons.injEq, Prod.mk.injEq] at h
      obtain ⟨⟨hk, hb⟩, ht⟩ := h
      have ho : p.2.owner = q.2.owner := congrArg (fun x => x.2.2.2.2.1) hb
      have hp : p.2.pub = q.2.pub := congrArg (fun x => x.2.2.1) hb
      by_cases hw : p.1 = w
      · simp [lookupIndex, hw, hk ▸ hw, ho, hp]
      · have hw2 : ¬q.1 = w := hk ▸ hw
        simp only [lookupIndex, hw, hw2, if_false]
        exact ih ht

lemma countedStep_none {latest : Bool} {i2o : Nat → Option ObjRec} {ws : Nat} {v : VerRec}
    (h : i2o v.objId = none) : countedStep latest i2o ws v = none := by
  unfold countedStep
  rw [h]

lemma countedStep_some {latest : Bool} {i2o : Nat → Option ObjRec} {ws : Nat} {v : VerRec}
    {o : ObjRec} (h : i2o v.objId = some o) :
    countedStep latest i2o ws v =
      if latest = true ∧ v.ver ≠ o.numver then none else some ⟨ws, o, v⟩ := by
  unfold countedStep
  rw [h]

lemma countedStep_ws {latest : Bool} {i2o : Nat → Option ObjRec} {ws : Nat} {v : VerRec}
    {c : CV} (h : countedStep latest i2o ws v = some c) : c.ws = ws := by
  cases hio : i2o v.objId with
  | none => rw [countedStep_none hio] at h; exact absurd h (by simp)
  | some o =>
    rw [countedStep_some hio] at h
    by_cases hl : latest = true ∧ v.ver ≠ o.numver
    · rw [if_pos hl] at h; exact absurd h (by simp)
    · rw [if_neg hl] at h
      cases h
      rfl

lemma countedOfVers_ws {latest : Bool} {i2o : Nat → Option ObjRec} {ws : Nat}
    {vl : List VerRec} {c : CV} (h : c ∈ countedOfVers latest i2o ws vl) : c.ws = ws := by
  simp only [countedOfVers, List.mem_filterMap] at h
  obtain ⟨v, _, hv⟩ := h
  exact countedStep_ws hv

lemma addCV_nil (c : Counts) : addCV c [] = c := by simp [addCV]

lemma addCV_append (c : Counts) (l₁ l₂ : List CV) :
    addCV c (l₁ ++ l₂) = addCV (addCV c l₁) l₂ := by
  simp [addCV, List.map_append, Nat.add_assoc]

/-- Case analysis of one successful iteration of the version loop: either the
version is skipped and the state is unchanged, or it is counted and the
user-totals cell for the page's `(wsowner, wspub)` and the object's deletion
state is bumped while the builder view of the index is untouched. -/
lemma procVer_ok_cases (incl_types list_types : Option (List String)) (latest : Bool)
    (i2o : Nat → Option ObjRec) (ws : Nat) (op : Option (String × Vis))
    (acc acc' : AggState × Nat) (v : VerRec)
    (h : procVer incl_types list_types latest i2o ws op acc v = .ok acc') :
    (countedStep latest i2o ws v = none ∧ acc' = acc) ∨
    (∃ o wsop, countedStep latest i2o ws v = some ⟨ws, o, v⟩ ∧ op = some wsop ∧
      acc'.1.userdata = bump3 acc.1.userdata wsop.1 wsop.2 (delStateOf o.del) v.size ∧
      bv acc'.1.workspaces = bv acc.1.workspaces) := by
  unfold procVer at h
  split at h
  · rename_i hio
    cases h
    exact Or.inl ⟨countedStep_none hio, rfl⟩
  · rename_i o hio
    split at h
    · rename_i hl
      cases h
      exact Or.inl ⟨by rw [countedStep_some hio, if_pos hl], rfl⟩
    · rename_i hl
      split at h
      · exact Except.noConfusion h
      · rename_i wsop
        dsimp only at h
        split at h
        · exact Except.noConfusion h
        · rename_i month hm
          split at h
          · exact Except.noConfusion h
          · rename_i bi hes
            split at h
            · exact Except.noConfusion h
            · rename_i bl hec
              cases h
              exact Or.inr ⟨o, wsop, by rw [countedStep_some hio, if_neg hl], rfl, rfl,
                bv_updIndex _ _ _ _⟩

/-- Effect of a whole version loop on the user totals and on the builder view
of the index. -/
lemma procVersList_ok (incl_types list_types : Option (List String)) (latest : Bool)
    (i2o : Nat → Option ObjRec) (ws : Nat) (op : Option (String × Vis)) :
    ∀ (vl : List VerRec) (acc acc' : AggState × Nat),
      procVersList incl_types list_types latest i2o ws op acc vl = .ok acc' →
      (∀ u p d, acc'.1.userdata u p d =
        addCV (acc.1.userdata u p d)
          ((countedOfVers latest i2o ws vl).filter (opKey op u p d)))
      ∧ bv acc'.1.workspaces = bv acc.1.workspaces := by
  intro vl
  induction vl with
  | nil =>
    intro acc acc' h
    simp only [procVersList] at h
    cases h
    exact ⟨fun u p d => by simp [countedOfVers, addCV_nil], rfl⟩
  | cons v rest ih =>
    intro acc acc' h
    simp only [procVersList] at h
    cases hp : procVer incl_types list_types latest i2o ws op acc v with
    | error e => rw [hp] at h; exact absurd h (by simp)
    | ok acc₁ =>
      rw [hp] at h
      have hrest := ih acc₁ acc' h
      have hcons : countedOfVers latest i2o ws (v :: rest) =
          (countedStep latest i2o ws v).toList ++ countedOfVers latest i2o ws rest := by
        simp [countedOfVers, List.filterMap_cons]
        cases countedStep latest i2o ws v <;> simp
      rcases procVer_ok_cases incl_types list_types latest i2o ws op acc acc₁ v hp with
        ⟨hskip, rfl⟩ | ⟨o, wsop, hcnt, hop, hud, hbv⟩
      · rw [hcons, hskip]
        exact ⟨fun u p d => by simpa using hrest.1 u p d, hrest.2⟩
      · subst hop
        constructor
        · intro u p d
          rw [hrest.1 u p d, hcons, hcnt, hud]
          simp only [Option.toList_some, List.singleton_append, List.filter_cons]
          by_cases hk : opKey (some wsop) u p d ⟨ws, o, v⟩ = true
          · rw [if_pos hk]
            have hcond : u = wsop.1 ∧ p = wsop.2 ∧ d = delStateOf o.del := by
              simp only [opKey, Bool.and_eq_true, decide_eq_true_eq, Option.some_inj] at hk
              exact ⟨by rw [hk.1], by rw [hk.1], hk.2.symm⟩
            simp only [bump3, if_pos hcond]
            obtain ⟨h1, h2, h3⟩ := hcond
            rw [h1, h2, h3]
            simp only [addCV, bumpCounts, List.length_cons, List.map_cons, List.sum_cons,
              Counts.mk.injEq]
            omega
          · rw [if_neg hk]
            have hcond : ¬(u = wsop.1 ∧ p = wsop.2 ∧ d = delStateOf o.del) := by
              intro hc
              apply hk
              obtain ⟨h1, h2, h3⟩ := hc
              simp [opKey, h1, h2, h3, Prod.ext_iff]
            simp only [bump3, if_neg hcond]
        · exact hrest.2.trans hbv

/-- Effect of processing one object page (`process_object_versions`), stated
against the counted versions of that page and the index used to look up
`(wsowner, wspub)`.  The hypothesis `hsync` says the live index agrees with
`idx` on every builder-written field. -/
lemma process_object_versions_ok (db : Store) (idx : List (Nat × WsEnt)) (st : AggState)
    (objects : List ObjRec) (incl_types list_types : Option (List String))
    (start_id end_id : Nat) (latest : Bool) (st' : AggState) (n : Nat)
    (hsync : bv st.workspaces = bv idx)
    (h : process_object_versions db st objects incl_types list_types start_id end_id latest
      = .ok (st', n)) :
    (∀ u p d, st'.userdata u p d =
      addCV (st.userdata u p d)
        ((countedOfPage db objects latest start_id end_id).filter (cvKey idx u p d)))
    ∧ bv st'.workspaces = bv idx := by
  unfold process_object_versions at h
  cases ho : objects.getLast? with
  | none =>
    rw [ho] at h
    cases h
    exact ⟨fun u p d => by simp [countedOfPage, ho, addCV_nil], hsync⟩
  | some olast =>
    rw [ho] at h
    have hl := procVersList_ok incl_types list_types latest (id2obj objects) olast.ws
      ((lookupIndex st.workspaces olast.ws).map (fun e => (e.owner, e.pub))) _ (st, 0)
      (st', n) h
    have hopeq : (lookupIndex st.workspaces olast.ws).map (fun e => (e.owner, e.pub)) =
        (lookupIndex idx olast.ws).map (fun e => (e.owner, e.pub)) :=
      lookupIndex_map_proj hsync olast.ws
    constructor
    · intro u p d
      rw [hl.1 u p d]
      have hpage : countedOfPage db objects latest start_id end_id =
          countedOfVers latest (id2obj objects) olast.ws
            (db.versions.filter
              (fun v => v.ws = olast.ws ∧ start_id < v.objId ∧ v.objId ≤ end_id)) := by
        simp [countedOfPage, ho]
      rw [hpage]
      congr 1
      apply List.filter_congr
      intro c hc
      have hcw := countedOfVers_ws hc
      simp only [opKey, cvKey, hopeq, hcw, ownerOf, pubOf]
      cases lookupIndex idx olast.ws with
      | none => simp
      | some ent => simp [Prod.ext_iff, and_comm]
    · exact hl.2.trans hsync

/-- Effect of the page loop of one workspace. -/
lemma process_pages_ok (db : Store) (idx : List (Nat × WsEnt)) (wsId : Nat)
    (incl_types list_types : Option (List String)) (latest : Bool) :
    ∀ (lims : List Nat) (st st' : AggState),
      process_pages db wsId incl_types list_types latest st lims = .ok st' →
      bv st.workspaces = bv idx →
      (∀ u p d, st'.userdata u p d =
        addCV (st.userdata u p d)
          ((countedOfPagesL db wsId latest lims).filter (cvKey idx u p d)))
      ∧ bv st'.workspaces = bv idx := by
  intro lims
  induction lims with
  | nil =>
    intro st st' h hsync
    simp only [process_pages] at h
    cases h
    exact ⟨fun u p d => by simp [countedOfPagesL, addCV_nil], hsync⟩
  | cons lim rest ih =>
    intro st st' h hsync
    simp only [process_pages] at h
    cases hpv : process_object_versions db st
        (db.objects.filter (fun o => o.ws = wsId ∧ lim - LIMIT < o.id ∧ o.id ≤ lim))
        incl_types list_types (lim - LIMIT) lim latest with
    | error e => rw [hpv] at h; exact absurd h (by simp)
    | ok pr =>
      obtain ⟨st₁, n₁⟩ := pr
      rw [hpv] at h
      have h1 := process_object_versions_ok db idx st _ incl_types list_types _ _ latest
        st₁ n₁ hsync hpv
      have h2 := ih st₁ st' h h1.2
      refine ⟨fun u p d => ?_, h2.2⟩
      rw [h2.1 u p d, h1.1 u p d]
      simp [countedOfPagesL, List.filter_append, addCV_append]

/-- Effect of the whole workspace loop. -/
lemma process_ws_list_ok (db : Store) (idx : List (Nat × WsEnt)) (exclude_ws : List Nat)
    (incl_types list_types : Option (List String)) (latest : Bool) :
    ∀ (rest : List (Nat × WsEnt)) (st st' : AggState),
      process_ws_list db exclude_ws incl_types list_types latest st rest = .ok st' →
      bv st.workspaces = bv idx →
      (∀ u p d, st'.userdata u p d =
        addCV (st.userdata u p d)
          ((countedPairs db exclude_ws latest rest).filter (cvKey idx u p d)))
      ∧ bv st'.workspaces = bv idx := by
  intro rest
  induction rest with
  | nil =>
    intro st st' h hsync
    simp only [process_ws_list] at h
    cases h
    exact ⟨fun u p d => by simp [countedPairs, addCV_nil], hsync⟩
  | cons we rest ih =>
    intro st st' h hsync
    simp only [process_ws_list] at h
    by_cases hex : we.1 ∈ exclude_ws
    · rw [if_pos hex] at h
      have h2 := ih st st' h hsync
      refine ⟨fun u p d => ?_, h2.2⟩
      rw [h2.1 u p d]
      simp [countedPairs, hex]
    · rw [if_neg hex] at h
      cases hpp : process_pages db we.1 incl_types list_types latest st
          (pageLims we.2.numObj) with
      | error e => rw [hpp] at h; exact absurd h (by simp [Except.bind])
      | ok st₁ =>
        rw [hpp] at h
        simp only [Except.bind] at h
        have h1 := process_pages_ok db idx we.1 incl_types list_types latest _ st st₁
          hpp hsync
        have h2 := ih st₁ st' h h1.2
        refine ⟨fun u p d => ?_, h2.2⟩
        rw [h2.1 u p d, h1.1 u p d]
        simp [countedPairs, hex, List.filter_append, addCV_append]

/-!
## Concrete data

A small store used to instantiate the theorems: two workspaces (workspace 1
is public via a `'*'` grant and owned by `alice`; workspace 2 is private and
owned by `bob`), one object in workspace 1 with two versions.
-/

def exAcls : List AclRec := [⟨1, "*", 10⟩, ⟨1, "carol", 20⟩, ⟨2, "alice", 30⟩]

def exWs1 : WsRec := ⟨1, 1, "alice", false, "ws1", none⟩

def exWs2 : WsRec := ⟨2, 0, "bob", false, "ws2", some [("narrative", "7")]⟩

def exObj1 : ObjRec := ⟨1, 1, false, "obj1", 2⟩

def exVer1 : VerRec :=
  ⟨"52735f60aaaaaaaaaaaaaaaa", 1, 1, 1, 100, "KBaseGenomes-Genome", "alice",
   "2014-01-01T00:00:00", false, none⟩

def exVer2 : VerRec :=
  ⟨"52735f61aaaaaaaaaaaaaaaa", 1, 1, 2, 50, "KBaseGenomes-Genome", "alice",
   "2014-01-02T00:00:00", false, none⟩

/-- `exVer1` with a different stored save date (same record id). -/
def exVer1b : VerRec :=
  ⟨"52735f60aaaaaaaaaaaaaaaa", 1, 1, 1, 100, "KBaseGenomes-Genome", "alice",
   "1999-12-31T23:59:59", false, none⟩

def exDb : Store := ⟨[exWs1, exWs2], exAcls, [exObj1], [exVer1, exVer2]⟩

def exIdx : List (Nat × WsEnt) := process_workspaces exDb

def exSt : AggState :=
  match process_objects exDb exIdx [] (some ["KBaseGenomes"]) (some ["KBaseGenomes"]) false with
  | .ok st => st
  | .error _ => initState exIdx

/-!
## The claims
-/

/-- C1.  For every successful run of the aggregation pass, the count and byte
totals accumulated in the user-totals structure under a `(user, visibility,
deletion-state)` key equal the number and byte-size sum of exactly those
counted versions whose workspace has that owner and visibility in the
workspace index and whose *object's* deleted flag gives that deletion
state. -/
theorem user_totals_partition (db : Store) (idx : List (Nat × WsEnt))
    (exclude_ws : List Nat) (incl_types list_types : Option (List String))
    (only_latest_ver : Bool) (st : AggState)
    (h : process_objects db idx exclude_ws incl_types list_types only_latest_ver = .ok st)
    (u : String) (p : Vis) (d : DelState) :
    st.userdata u p d =
      ⟨((countedPairs db exclude_ws only_latest_ver idx).filter (cvKey idx u p d)).length,
       (((countedPairs db exclude_ws only_latest_ver idx).filter (cvKey idx u p d)).map
         (fun c => c.v.size)).sum⟩ := by
  have hh := process_ws_list_ok db idx exclude_ws incl_types list_types only_latest_ver idx
    (initState idx) st h rfl
  have h1 := hh.1 u p d
  simpa [initState, addCV] using h1

theorem user_totals_partition_witness :
    exSt.userdata "alice" Vis.pub DelState.std = ⟨2, 150⟩ :=
  (user_totals_partition exDb exIdx [] (some ["KBaseGenomes"]) (some ["KBaseGenomes"])
    false exSt rfl "alice" Vis.pub DelState.std).trans (by decide)

/-- C4, counterexample.  The workspace index is *not* held read-only by the
rest of the run: already during the aggregation pass (before any
output-stripping of the object-count field) the entry of workspace 1 is
mutated by the per-workspace count/byte totals of lines 319-320. -/
theorem workspace_index_mutated_by_aggregation :
    process_objects exDb exIdx [] (some ["KBaseGenomes"]) (some ["KBaseGenomes"]) false
      = .ok exSt
    ∧ lookupIndex exSt.workspaces 1 ≠ lookupIndex exIdx 1 :=
  ⟨rfl, by decide⟩

/-- C4, amended.  The aggregation pass never changes any builder-written
field of any workspace index entry (identifier, shared count and list,
visibility, object count, owner, name, metadata); its only mutation of the
index is the accumulation of per-workspace count/byte totals keyed by
deletion state, and the object-count field is stripped separately before
final output. -/
theorem workspace_index_builder_fields_frame (db : Store) (idx : List (Nat × WsEnt))
    (exclude_ws : List Nat) (incl_types list_types : Option (List String))
    (only_latest_ver : Bool) (st : AggState)
    (h : process_objects db idx exclude_ws incl_types list_types only_latest_ver = .ok st) :
    bv st.workspaces = bv idx :=
  (process_ws_list_ok db idx exclude_ws incl_types list_types only_latest_ver idx
    (initState idx) st h rfl).2

theorem workspace_index_builder_fields_frame_witness : bv exSt.workspaces = bv exIdx :=
  workspace_index_builder_fields_frame exDb exIdx [] (some ["KBaseGenomes"])
    (some ["KBaseGenomes"]) false exSt rfl

/-- C5.  The month bucket of a version is a function of the leading 8 hex
characters of its record identifier alone: two versions with the same
identifier prefix get the same bucket whatever their stored save dates (or
any other field) are. -/
theorem month_bucket_from_id_prefix (v₁ v₂ : VerRec)
    (h : v₁.mongoId.take 8 = v₂.mongoId.take 8) : month_of v₁ = month_of v₂ := by
  unfold month_of
  rw [h]

theorem month_bucket_from_id_prefix_witness :
    exVer1.mongoId.take 8 = exVer1b.mongoId.take 8
    ∧ exVer1.savedate ≠ exVer1b.savedate
    ∧ month_of exVer1 = month_of exVer1b :=
  ⟨rfl, by decide, month_bucket_from_id_prefix exVer1 exVer1b rfl⟩

/-- The invariant of claim C3: every observed `(object, version)` pair has a
listing entry under its composite key whose recorded version number is at
least the observed one. -/
def listing_key_inv (objlist : String → Option ObjEntry)
    (observed : List (ObjRec × VerRec)) : Prop :=
  ∀ ov ∈ observed, ∃ e, objlist (obj_kbid ov.2.ws ov.2.objId) = some e ∧ ov.2.ver ≤ e.ver

/-- Pointwise description of `update_object_list`. -/
lemma update_object_list_apply (objlist : String → Option ObjEntry) (o : ObjRec)
    (v : VerRec) (k : String) :
    update_object_list objlist o v k =
      if k = obj_kbid v.ws v.objId then
        match objlist (obj_kbid v.ws v.objId) with
        | some e => if e.ver > v.ver then objlist k else some (mkObjEntry o v)
        | none => some (mkObjEntry o v)
      else objlist k := by
  unfold update_object_list
  cases hk : objlist (obj_kbid v.ws v.objId) with
  | none =>
    by_cases hkey : k = obj_kbid v.ws v.objId <;> simp [hk, hkey]
  | some e =>
    by_cases hv : e.ver > v.ver
    · by_cases hkey : k = obj_kbid v.ws v.objId <;> simp [hk, hv, hkey]
    · by_cases hkey : k = obj_kbid v.ws v.objId <;> simp [hk, hv, hkey]

/-- C3.  `update_object_list` preserves the keep-max-version invariant: after
any call, the stored entry of every object observed so far (including the
version just passed in) records a version number at least as large as every
observed version of that object. -/
theorem object_list_keeps_max_version (objlist : String → Option ObjEntry)
    (observed : List (ObjRec × VerRec)) (o : ObjRec) (v : VerRec)
    (hinv : listing_key_inv objlist observed) :
    listing_key_inv (update_object_list objlist o v) (observed ++ [(o, v)]) := by
  intro ov hov
  rw [List.mem_append] at hov
  cases hov with
  | inr hnew =>
    simp only [List.mem_singleton] at hnew
    subst hnew
    rw [update_object_list_apply, if_pos rfl]
    cases hk : objlist (obj_kbid v.ws v.objId) with
    | none => exact ⟨mkObjEntry o v, rfl, le_refl _⟩
    | some e =>
      dsimp only
      by_cases hv : e.ver > v.ver
      · rw [if_pos hv]
        exact ⟨e, rfl, Nat.le_of_lt hv⟩
      · rw [if_neg hv]
        exact ⟨mkObjEntry o v, rfl, le_refl _⟩
  | inl hold =>
    obtain ⟨e₀, he₀, hle₀⟩ := hinv ov hold
    rw [update_object_list_apply]
    by_cases hkey : obj_kbid ov.2.ws ov.2.objId = obj_kbid v.ws v.objId
    · rw [if_pos hkey]
      have he₀' : objlist (obj_kbid v.ws v.objId) = some e₀ := hkey ▸ he₀
      rw [he₀']
      dsimp only
      by_cases hv : e₀.ver > v.ver
      · rw [if_pos hv]
        exact ⟨e₀, he₀, hle₀⟩
      · rw [if_neg hv]
        exact ⟨mkObjEntry o v, rfl, le_trans hle₀ (Nat.le_of_not_lt hv)⟩
    · rw [if_neg hkey]
      exact ⟨e₀, he₀, hle₀⟩

theorem object_list_keeps_max_version_witness :
    listing_key_inv (fun _ => none) []
    ∧ listing_key_inv (update_object_list (fun _ => none) exObj1 exVer1)
        ([] ++ [(exObj1, exVer1)]) :=
  ⟨fun ov hov => absurd hov (List.not_mem_nil ov),
   object_list_keeps_max_version (fun _ => none) [] exObj1 exVer1
     (fun ov hov => absurd hov (List.not_mem_nil ov))⟩

/-- The visibility component of the ACL fold of `process_workspaces`: it ends
up `public` exactly when it started `public` or some scanned record grants to
`'*'`. -/
lemma foldl_pub_iff (w : WsRec) (l : List AclRec) (init : List (String × Nat) × Vis) :
    (l.foldl
      (fun (up : List (String × Nat) × Vis) a =>
        (if a.user ≠ w.owner ∧ a.user ≠ "*" then dictInsert up.1 a.user a.perm else up.1,
         if a.user = "*" then Vis.pub else up.2))
      init).2 = Vis.pub ↔ (init.2 = Vis.pub ∨ ∃ a ∈ l, a.user = "*") := by
  induction l generalizing init with
  | nil => simp
  | cons a l ih =>
    rw [List.foldl_cons, ih]
    by_cases ha : a.user = "*"
    · simp [ha]
    · simp [ha, or_assoc]

/-- C7.  A workspace index entry's visibility is `public` if and only if some
access-control record for that workspace grants access to the wildcard
all-users principal `'*'`; otherwise it is `private`. -/
theorem visibility_public_iff_wildcard_acl (db : Store) (pr : Nat × WsEnt)
    (hmem : pr ∈ process_workspaces db) :
    pr.2.pub = Vis.pub ↔ ∃ a ∈ db.acls, a.id = pr.1 ∧ a.user = "*" := by
  simp only [process_workspaces, List.mem_map] at hmem
  obtain ⟨w, hw, rfl⟩ := hmem
  simp only [entry_for]
  rw [foldl_pub_iff]
  constructor
  · intro h
    cases h with
    | inl h => exact absurd h (by simp)
    | inr h =>
      obtain ⟨a, ha, hstar⟩ := h
      rw [List.mem_filter] at ha
      exact ⟨a, ha.1, by simpa using ha.2, hstar⟩
  · intro h
    obtain ⟨a, ha, hid, hstar⟩ := h
    exact Or.inr ⟨a, List.mem_filter.2 ⟨ha, by simpa using hid⟩, hstar⟩

theorem visibility_public_iff_wildcard_acl_witness :
    ((1 : Nat), entry_for exDb.acls exWs1) ∈ process_workspaces exDb
    ∧ ((entry_for exDb.acls exWs1).pub = Vis.pub
        ↔ ∃ a ∈ exDb.acls, a.id = 1 ∧ a.user = "*") :=
  ⟨by decide, visibility_public_iff_wildcard_acl exDb (1, entry_for exDb.acls exWs1)
    (by decide)⟩

/-- The store with every object and version of the excluded workspaces
removed; claim C6 says an aggregation run cannot tell the difference. -/
def dropWs (db : Store) (exclude_ws : List Nat) : Store :=
  { db with objects := db.objects.filter (fun o => o.ws ∉ exclude_ws),
            versions := db.versions.filter (fun v => v.ws ∉ exclude_ws) }

lemma filter_drop_objects (db : Store) (exclude_ws : List Nat) (wsId : Nat)
    (hx : wsId ∉ exclude_ws) (a b : Nat) :
    (dropWs db exclude_ws).objects.filter (fun o => o.ws = wsId ∧ a < o.id ∧ o.id ≤ b)
      = db.objects.filter (fun o => o.ws = wsId ∧ a < o.id ∧ o.id ≤ b) := by
  simp only [dropWs]
  rw [List.filter_filter]
  apply List.filter_congr
  intro o _
  by_cases h : o.ws = wsId ∧ a < o.id ∧ o.id ≤ b
  · have hns : o.ws ∉ exclude_ws := h.1 ▸ hx
    simp [h, hns, hx]
  · simp [h]

lemma filter_drop_versions (db : Store) (exclude_ws : List Nat) (wsId : Nat)
    (hx : wsId ∉ exclude_ws) (a b : Nat) :
    (dropWs db exclude_ws).versions.filter
        (fun v => v.ws = wsId ∧ a < v.objId ∧ v.objId ≤ b)
      = db.versions.filter (fun v => v.ws = wsId ∧ a < v.objId ∧ v.objId ≤ b) := by
  simp only [dropWs]
  rw [List.filter_filter]
  apply List.filter_congr
  intro v _
  by_cases h : v.ws = wsId ∧ a < v.objId ∧ v.objId ≤ b
  · have hns : v.ws ∉ exclude_ws := h.1 ▸ hx
    simp [h, hns, hx]
  · simp [h]

lemma mem_page_filter_ws {db : Store} {wsId a b : Nat} {o : ObjRec}
    (ho : o ∈ db.objects.filter (fun o => o.ws = wsId ∧ a < o.id ∧ o.id ≤ b)) :
    o.ws = wsId :=
  (of_decide_eq_true (List.mem_filter.mp ho).2).1

lemma process_object_versions_dropWs (db : Store) (exclude_ws : List Nat) (st : AggState)
    (objects : List ObjRec) (incl_types list_types : Option (List String))
    (start_id end_id : Nat) (latest : Bool)
    (hws : ∀ o ∈ objects, o.ws ∉ exclude_ws) :
    process_object_versions (dropWs db exclude_ws) st objects incl_types list_types
        start_id end_id latest
      = process_object_versions db st objects incl_types list_types start_id end_id latest := by
  unfold process_object_versions
  cases ho : objects.getLast? with
  | none => rfl
  | some olast =>
    have hn : olast.ws ∉ exclude_ws := hws olast (List.mem_of_mem_getLast? ho)
    dsimp only
    rw [filter_drop_versions db exclude_ws olast.ws hn start_id end_id]

lemma process_pages_dropWs (db : Store) (exclude_ws : List Nat) (wsId : Nat)
    (incl_types list_types : Option (List String)) (latest : Bool)
    (hx : wsId ∉ exclude_ws) :
    ∀ (lims : List Nat) (st : AggState),
      process_pages (dropWs db exclude_ws) wsId incl_types list_types latest st lims
        = process_pages db wsId incl_types list_types latest st lims := by
  intro lims
  induction lims with
  | nil => intro st; rfl
  | cons lim rest ih =>
    intro st
    simp only [process_pages]
    rw [filter_drop_objects db exclude_ws wsId hx (lim - LIMIT) lim]
    rw [process_object_versions_dropWs db exclude_ws st _ incl_types list_types
      (lim - LIMIT) lim latest
      (fun o ho => by rw [mem_page_filter_ws ho]; exact hx)]
    cases hE : process_object_versions db st
        (db.objects.filter (fun o => o.ws = wsId ∧ lim - LIMIT < o.id ∧ o.id ≤ lim))
        incl_types list_types (lim - LIMIT) lim latest with
    | error e => rfl
    | ok pr =>
      obtain ⟨st1, n1⟩ := pr
      exact ih st1

lemma process_ws_list_dropWs (db : Store) (exclude_ws : List Nat)
    (incl_types list_types : Option (List String)) (latest : Bool) :
    ∀ (rest : List (Nat × WsEnt)) (st : AggState),
      process_ws_list (dropWs db exclude_ws) exclude_ws incl_types list_types latest st rest
        = process_ws_list db exclude_ws incl_types list_types latest st rest := by
  intro rest
  induction rest with
  | nil => intro st; rfl
  | cons we rest ih =>
    intro st
    simp only [process_ws_list]
    by_cases hex : we.1 ∈ exclude_ws
    · rw [if_pos hex, if_pos hex]
      exact ih st
    · rw [if_neg hex, if_neg hex]
      rw [process_pages_dropWs db exclude_ws we.1 incl_types list_types latest hex]
      exact congrArg _ (funext fun st' => ih st')

lemma countedOfPagesL_ws (db : Store) (wsId : Nat) (latest : Bool) :
    ∀ (lims : List Nat) (c : CV), c ∈ countedOfPagesL db wsId latest lims → c.ws = wsId := by
  intro lims
  induction lims with
  | nil => simp [countedOfPagesL]
  | cons lim rest ih =>
    intro c hc
    simp only [countedOfPagesL, List.mem_append] at hc
    cases hc with
    | inl h =>
      unfold countedOfPage at h
      cases ho : (db.objects.filter
          (fun o => o.ws = wsId ∧ lim - LIMIT < o.id ∧ o.id ≤ lim)).getLast? with
      | none => rw [ho] at h; exact absurd h (by simp)
      | some olast =>
        rw [ho] at h
        have hm : olast ∈ db.objects.filter
            (fun o => o.ws = wsId ∧ lim - LIMIT < o.id ∧ o.id ≤ lim) :=
          List.mem_of_mem_getLast? ho
        have hws : olast.ws = wsId := (of_decide_eq_true (List.mem_filter.mp hm).2).1
        rw [countedOfVers_ws h]
        exact hws
    | inr h => exact ih c h

lemma countedPairs_not_excluded (db : Store) (exclude_ws : List Nat) (latest : Bool) :
    ∀ (idx : List (Nat × WsEnt)) (c : CV),
      c ∈ countedPairs db exclude_ws latest idx → c.ws ∉ exclude_ws := by
  intro idx
  induction idx with
  | nil => simp [countedPairs]
  | cons we rest ih =>
    intro c hc
    simp only [countedPairs, List.mem_append] at hc
    cases hc with
    | inl h =>
      by_cases hex : we.1 ∈ exclude_ws
      · rw [if_pos hex] at h
        exact absurd h (by simp)
      · rw [if_neg hex] at h
        rw [countedOfPagesL_ws db we.1 latest _ c h]
        exact hex
    | inr h => exact ih c h

/-- C6.  A workspace in the exclusion set contributes nothing to any
accumulator: the whole aggregation run is unchanged when every object and
version of the excluded workspaces is deleted from the store, and no counted
version belongs to an excluded workspace. -/
theorem excluded_workspace_contributes_nothing (db : Store) (idx : List (Nat × WsEnt))
    (exclude_ws : List Nat) (incl_types list_types : Option (List String))
    (only_latest_ver : Bool) :
    process_objects db idx exclude_ws incl_types list_types only_latest_ver
      = process_objects (dropWs db exclude_ws) idx exclude_ws incl_types list_types
          only_latest_ver
    ∧ ∀ c ∈ countedPairs db exclude_ws only_latest_ver idx, c.ws ∉ exclude_ws := by
  constructor
  · unfold process_objects
    exact (process_ws_list_dropWs db exclude_ws incl_types list_types only_latest_ver idx
      (initState idx)).symm
  · exact countedPairs_not_excluded db exclude_ws only_latest_ver idx

theorem excluded_workspace_contributes_nothing_witness :
    CV.mk 1 exObj1 exVer1 ∈ countedPairs exDb [2] false exIdx
    ∧ (CV.mk 1 exObj1 exVer1).ws ∉ ([2] : List Nat) :=
  ⟨by decide,
   (excluded_workspace_contributes_nothing exDb exIdx [2] (some ["KBaseGenomes"])
     (some ["KBaseGenomes"]) false).2 _ (by decide)⟩

lemma countedStep_v {latest : Bool} {i2o : Nat → Option ObjRec} {ws : Nat} {v : VerRec}
    {c : CV} (h : countedStep latest i2o ws v = some c) : c.v = v := by
  cases hio : i2o v.objId with
  | none => rw [countedStep_none hio] at h; exact absurd h (by simp)
  | some o =>
    rw [countedStep_some hio] at h
    by_cases hl : latest = true ∧ v.ver ≠ o.numver
    · rw [if_pos hl] at h; exact absurd h (by simp)
    · rw [if_neg hl] at h
      cases h
      rfl

lemma countedOfVers_v_mem {latest : Bool} {i2o : Nat → Option ObjRec} {ws : Nat}
    {vl : List VerRec} {c : CV} (h : c ∈ countedOfVers latest i2o ws vl) : c.v ∈ vl := by
  simp only [countedOfVers, List.mem_filterMap] at h
  obtain ⟨v, hv, hstep⟩ := h
  rw [countedStep_v hstep]
  exact hv

/-- Everything counted on a page has its object id inside the page's
identifier range. -/
lemma mem_countedOfPage_objId_le {db : Store} {objs : List ObjRec} {latest : Bool}
    {a b : Nat} {c : CV} (hc : c ∈ countedOfPage db objs latest a b) : c.v.objId ≤ b := by
  unfold countedOfPage at hc
  cases ho : objs.getLast? with
  | none => rw [ho] at hc; exact absurd hc (by simp)
  | some olast =>
    rw [ho] at hc
    have hv := countedOfVers_v_mem hc
    exact (of_decide_eq_true (List.mem_filter.mp hv).2).2.2

lemma mem_countedOfPagesL {db : Store} {wsId : Nat} {latest : Bool} :
    ∀ {lims : List Nat} {c : CV}, c ∈ countedOfPagesL db wsId latest lims →
      ∃ lim ∈ lims, c ∈ countedOfPage db
        (db.objects.filter (fun o => o.ws = wsId ∧ lim - LIMIT < o.id ∧ o.id ≤ lim))
        latest (lim - LIMIT) lim := by
  intro lims
  induction lims with
  | nil => intro c hc; exact absurd hc (by simp [countedOfPagesL])
  | cons lim rest ih =>
    intro c hc
    simp only [countedOfPagesL, List.mem_append] at hc
    cases hc with
    | inl h => exact ⟨lim, List.mem_cons_self lim rest, h⟩
    | inr h =>
      obtain ⟨lim', hmem, hpage⟩ := ih h
      exact ⟨lim', List.mem_cons_of_mem lim hmem, hpage⟩

lemma mem_countedPairs {db : Store} {exclude_ws : List Nat} {latest : Bool} :
    ∀ {idx : List (Nat × WsEnt)} {c : CV}, c ∈ countedPairs db exclude_ws latest idx →
      ∃ we, we ∈ idx ∧ c.ws = we.1 ∧ ∃ lim ∈ pageLims we.2.numObj,
        c ∈ countedOfPage db
          (db.objects.filter (fun o => o.ws = we.1 ∧ lim - LIMIT < o.id ∧ o.id ≤ lim))
          latest (lim - LIMIT) lim := by
  intro idx
  induction idx with
  | nil => intro c hc; exact absurd hc (by simp [countedPairs])
  | cons we rest ih =>
    intro c hc
    simp only [countedPairs, List.mem_append] at hc
    cases hc with
    | inl h =>
      by_cases hex : we.1 ∈ exclude_ws
      · rw [if_pos hex] at h
        exact absurd h (by simp)
      · rw [if_neg hex] at h
        obtain ⟨lim, hmem, hpage⟩ := mem_countedOfPagesL h
        exact ⟨we, List.mem_cons_self we rest,
          countedOfPagesL_ws db we.1 latest _ c h, lim, hmem, hpage⟩
    | inr h =>
      obtain ⟨we', hw, hws, lim, hmem, hpage⟩ := ih h
      exact ⟨we', List.mem_cons_of_mem we hw, hws, lim, hmem, hpage⟩

lemma pageLims_le {N lim : Nat} (h : lim ∈ pageLims N) :
    lim ≤ 10000 * ((N + 9999) / 10000) := by
  simp only [pageLims, xrangeList, LIMIT, List.mem_map, List.mem_range] at h
  obtain ⟨i, hi, rfl⟩ := h
  omega

lemma lookupIndex_of_mem_nodup :
    ∀ {idx : List (Nat × WsEnt)} {we : Nat × WsEnt}, (idx.map Prod.fst).Nodup →
      we ∈ idx → lookupIndex idx we.1 = some we.2 := by
  intro idx
  induction idx with
  | nil => intro we _ h; exact absurd h (by simp)
  | cons p rest ih =>
    intro we hnd hmem
    rw [List.mem_cons] at hmem
    simp only [List.map_cons, List.nodup_cons] at hnd
    cases hmem with
    | inl h =>
      subst h
      simp [lookupIndex]
    | inr h =>
      have hne : p.1 ≠ we.1 := by
        intro hcontra
        exact hnd.1 (hcontra ▸ List.mem_map_of_mem Prod.fst h)
      simp only [lookupIndex, hne, if_false]
      exact ih hnd.2 h

/-- C9.  For a workspace with declared object count `N`, the page loop
queries exactly `⌈N/10000⌉` contiguous non-overlapping ranges
`(k*10000, (k+1)*10000]` (zero ranges when `N = 0`); `10000 * ⌈N/10000⌉` is
the smallest multiple of 10000 at or above `N`; and every counted version's
object id is bounded by that multiple for its workspace, so an object with a
larger identifier is never fetched or counted. -/
theorem paging_ranges_and_bounds (db : Store) (idx : List (Nat × WsEnt))
    (exclude_ws : List Nat) (only_latest_ver : Bool) (N : Nat)
    (hkeys : (idx.map Prod.fst).Nodup) :
    ((pageLims N).map (fun lim => (lim - LIMIT, lim))
        = (List.range ((N + 9999) / 10000)).map (fun k => (10000 * k, 10000 * (k + 1))))
    ∧ (N ≤ 10000 * ((N + 9999) / 10000) ∧ 10000 * ((N + 9999) / 10000) < N + 10000)
    ∧ (∀ c ∈ countedPairs db exclude_ws only_latest_ver idx, ∀ e,
        lookupIndex idx c.ws = some e →
        c.v.objId ≤ 10000 * ((e.numObj + 9999) / 10000)) := by
  refine ⟨?_, by omega, ?_⟩
  · unfold pageLims xrangeList
    have hcount : (N + LIMIT - LIMIT + (LIMIT - 1)) / LIMIT = (N + 9999) / 10000 := by
      simp only [LIMIT]
      omega
    rw [hcount, List.map_map]
    apply List.map_congr_left
    intro i _
    simp only [Function.comp, LIMIT, Prod.mk.injEq]
    omega
  · intro c hc e he
    obtain ⟨we, hwe, hws, lim, hmem, hpage⟩ := mem_countedPairs hc
    have hlook : lookupIndex idx we.1 = some we.2 := lookupIndex_of_mem_nodup hkeys hwe
    rw [hws, hlook] at he
    cases he
    exact le_trans (mem_countedOfPage_objId_le hpage) (pageLims_le hmem)

lemma countedStep_o {latest : Bool} {i2o : Nat → Option ObjRec} {ws : Nat} {v : VerRec}
    {c : CV} (h : countedStep latest i2o ws v = some c) : i2o v.objId = some c.o := by
  cases hio : i2o v.objId with
  | none => rw [countedStep_none hio] at h; exact absurd h (by simp)
  | some o =>
    rw [countedStep_some hio] at h
    by_cases hl : latest = true ∧ v.ver ≠ o.numver
    · rw [if_pos hl] at h; exact absurd h (by simp)
    · rw [if_neg hl] at h
      cases h
      rfl

lemma countedStep_latest_numver {i2o : Nat → Option ObjRec} {ws : Nat} {v : VerRec}
    {c : CV} (h : countedStep true i2o ws v = some c) : c.v.ver = c.o.numver := by
  cases hio : i2o v.objId with
  | none => rw [countedStep_none hio] at h; exact absurd h (by simp)
  | some o =>
    rw [countedStep_some hio] at h
    by_cases hl : (true : Bool) = true ∧ v.ver ≠ o.numver
    · rw [if_pos hl] at h; exact absurd h (by simp)
    · rw [if_neg hl] at h
      cases h
      rcases Decidable.em (v.ver = o.numver) with h' | h'
      · exact h'
      · exact absurd ⟨rfl, h'⟩ hl

lemma countedOfVers_i2o {latest : Bool} {i2o : Nat → Option ObjRec} {ws : Nat}
    {vl : List VerRec} {c : CV} (hc : c ∈ countedOfVers latest i2o ws vl) :
    i2o c.v.objId = some c.o := by
  simp only [countedOfVers, List.mem_filterMap] at hc
  obtain ⟨v, _, hstep⟩ := hc
  rw [countedStep_v hstep]
  exact countedStep_o hstep

lemma countedOfVers_latest_numver {i2o : Nat → Option ObjRec} {ws : Nat}
    {vl : List VerRec} {c : CV} (hc : c ∈ countedOfVers true i2o ws vl) :
    c.v.ver = c.o.numver := by
  simp only [countedOfVers, List.mem_filterMap] at hc
  obtain ⟨v, _, hstep⟩ := hc
  exact countedStep_latest_numver hstep

lemma length_filter_eq_zero {α : Type} {l : List α} {p : α → Bool}
    (h : ∀ a ∈ l, ¬p a = true) : (l.filter p).length = 0 := by
  rw [List.filter_eq_nil_iff.mpr h]
  rfl

/-- On a list without duplicates, a predicate satisfied by at most one value
holds for at most one element. -/
lemma length_filter_le_one {α : Type} (l : List α) (p : α → Bool) (hnd : l.Nodup)
    (h : ∀ a ∈ l, ∀ b ∈ l, p a = true → p b = true → a = b) :
    (l.filter p).length ≤ 1 := by
  induction l with
  | nil => simp
  | cons a t ih =>
    rw [List.nodup_cons] at hnd
    rw [List.filter_cons]
    by_cases hp : p a = true
    · rw [if_pos hp]
      have ht : t.filter p = [] := by
        rw [List.filter_eq_nil_iff]
        intro b hb hpb
        have hab : a = b :=
          h a (List.mem_cons_self a t) b (List.mem_cons_of_mem a hb) hp hpb
        rw [← hab] at hb
        exact absurd hb hnd.1
      simp [ht]
    · rw [if_neg hp]
      exact ih hnd.2
        (fun x hx y hy => h x (List.mem_cons_of_mem a hx) y (List.mem_cons_of_mem a hy))

/-- When the images of a list under `f` are distinct, at most one element has
a given image. -/
lemma length_filter_eq_key_le_one {α β : Type} [DecidableEq β] (l : List α) (f : α → β)
    (k : β) (hnd : (l.map f).Nodup) : (l.filter (fun a => f a = k)).length ≤ 1 := by
  apply length_filter_le_one l _ (List.Nodup.of_map f hnd)
  intro a ha b hb hpa hpb
  apply List.inj_on_of_nodup_map hnd ha hb
  rw [of_decide_eq_true hpa, of_decide_eq_true hpb]

/-- A filtered `filterMap` is no longer than the source filtered by any test
implied by producing a kept value. -/
lemma length_filter_filterMap_le {α γ : Type} (l : List α) (g : α → Option γ)
    (p : γ → Bool) (q : α → Bool)
    (h : ∀ a ∈ l, ∀ c, g a = some c → p c = true → q a = true) :
    ((l.filterMap g).filter p).length ≤ (l.filter q).length := by
  induction l with
  | nil => simp
  | cons a t ih =>
    have ih' := ih (fun x hx => h x (List.mem_cons_of_mem a hx))
    cases hg : g a with
    | none =>
      simp only [List.filterMap_cons, hg, List.filter_cons]
      by_cases hq : q a = true
      · rw [if_pos hq]
        exact le_trans ih' (by simp [Nat.le_succ])
      · rw [if_neg hq]
        exact ih'
    | some c =>
      simp only [List.filterMap_cons, hg, List.filter_cons]
      by_cases hp : p c = true
      · rw [if_pos hp]
        have hq := h a (List.mem_cons_self a t) c hg hp
        rw [if_pos hq]
        simp only [List.length_cons]
        exact Nat.succ_le_succ ih'
      · rw [if_neg hp]
        by_cases hq : q a = true
        · rw [if_pos hq]
          exact le_trans ih' (by simp [Nat.le_succ])
        · rw [if_neg hq]
          exact ih'

/-- Within one version list whose records all belong to workspace `ws` and
have pairwise-distinct `(ws, objId, ver)` identifiers, latest-only counting
keeps at most one version of any object. -/
lemma countedOfVers_key_le_one {i2o : Nat → Option ObjRec} {ws : Nat} (vl : List VerRec)
    (w i : Nat) (hvl : ∀ v ∈ vl, v.ws = ws)
    (hnd : (vl.map (fun v => (v.ws, v.objId, v.ver))).Nodup) :
    ((countedOfVers true i2o ws vl).filter
      (fun c => c.ws = w ∧ c.v.objId = i)).length ≤ 1 := by
  by_cases hw : w = ws
  · subst hw
    cases hio : i2o i with
    | none =>
      refine le_trans (le_of_eq (length_filter_eq_zero ?_)) (Nat.zero_le 1)
      intro c hc hp
      have h1 := (of_decide_eq_true hp).2
      have h2 := countedOfVers_i2o hc
      rw [h1, hio] at h2
      exact Option.noConfusion h2
    | some o0 =>
      apply le_trans (length_filter_filterMap_le vl _ _
        (fun v => decide ((v.ws, v.objId, v.ver) = (w, i, o0.numver))) ?_)
      · exact length_filter_eq_key_le_one vl _ _ hnd
      · intro v hv c hstep hp
        apply decide_eq_true
        have hcv := countedStep_v hstep
        have hws := hvl v hv
        have hid : v.objId = i := by
          have := (of_decide_eq_true hp).2
          rw [hcv] at this
          exact this
        have hver : v.ver = o0.numver := by
          have hnum := countedStep_latest_numver hstep
          have ho := countedStep_o hstep
          rw [hid, hio] at ho
          cases ho
          rw [← hcv, hnum]
        simp only [Prod.mk.injEq]
        exact ⟨hws, hid, hver⟩
  · refine le_trans (le_of_eq (length_filter_eq_zero ?_)) (Nat.zero_le 1)
    intro c hc hp
    exact hw ((of_decide_eq_true hp).1 ▸ countedOfVers_ws hc)

lemma mem_countedOfPage_objId_gt {db : Store} {objs : List ObjRec} {latest : Bool}
    {a b : Nat} {c : CV} (hc : c ∈ countedOfPage db objs latest a b) : a < c.v.objId := by
  unfold countedOfPage at hc
  cases ho : objs.getLast? with
  | none => rw [ho] at hc; exact absurd hc (by simp)
  | some olast =>
    rw [ho] at hc
    have hv := countedOfVers_v_mem hc
    exact (of_decide_eq_true (List.mem_filter.mp hv).2).2.1

/-- The latest-only per-page bound: at most one counted version matches a
given `(workspace, object)` key. -/
lemma page_true_key_le_one (db : Store) (wsId lim w i : Nat)
    (hvers : (db.versions.map (fun v => (v.ws, v.objId, v.ver))).Nodup) :
    ((countedOfPage db
        (db.objects.filter (fun o => o.ws = wsId ∧ lim - LIMIT < o.id ∧ o.id ≤ lim))
        true (lim - LIMIT) lim).filter
      (fun c => c.ws = w ∧ c.v.objId = i)).length ≤ 1 := by
  unfold countedOfPage
  cases ho : (db.objects.filter
      (fun o => o.ws = wsId ∧ lim - LIMIT < o.id ∧ o.id ≤ lim)).getLast? with
  | none => simp
  | some olast =>
    dsimp only
    apply countedOfVers_key_le_one
    · intro v hv
      exact (of_decide_eq_true (List.mem_filter.mp hv).2).1
    · exact List.Nodup.sublist
        (List.Sublist.map _ (List.filter_sublist _)) hvers

lemma page_true_key_le_ind (db : Store) (wsId lim w i : Nat)
    (hvers : (db.versions.map (fun v => (v.ws, v.objId, v.ver))).Nodup) :
    ((countedOfPage db
        (db.objects.filter (fun o => o.ws = wsId ∧ lim - LIMIT < o.id ∧ o.id ≤ lim))
        true (lim - LIMIT) lim).filter
      (fun c => c.ws = w ∧ c.v.objId = i)).length
      ≤ if lim - LIMIT < i ∧ i ≤ lim then 1 else 0 := by
  by_cases hr : lim - LIMIT < i ∧ i ≤ lim
  · rw [if_pos hr]
    exact page_true_key_le_one db wsId lim w i hvers
  · rw [if_neg hr]
    apply le_of_eq
    apply length_filter_eq_zero
    intro c hc hp
    have h1 := (of_decide_eq_true hp).2
    exact hr (h1 ▸ ⟨mem_countedOfPage_objId_gt hc, mem_countedOfPage_objId_le hc⟩)

lemma countedOfPagesL_filter_length (db : Store) (wsId : Nat) (latest : Bool)
    (p : CV → Bool) :
    ∀ lims : List Nat, ((countedOfPagesL db wsId latest lims).filter p).length
      = (lims.map (fun lim => ((countedOfPage db
          (db.objects.filter (fun o => o.ws = wsId ∧ lim - LIMIT < o.id ∧ o.id ≤ lim))
          latest (lim - LIMIT) lim).filter p).length)).sum := by
  intro lims
  induction lims with
  | nil => simp [countedOfPagesL]
  | cons lim rest ih => simp [countedOfPagesL, List.filter_append, ih]

lemma sum_map_ite_eq_length_filter {α : Type} (l : List α) (p : α → Prop)
    [DecidablePred p] :
    (l.map (fun a => if p a then 1 else 0)).sum = (l.filter (fun a => decide (p a))).length := by
  induction l with
  | nil => rfl
  | cons a t ih =>
    by_cases hp : p a <;> simp [List.filter_cons, hp, ih, Nat.add_comm]

/-- An object id lies in at most one of the page ranges of a workspace. -/
lemma pageLims_key_unique (N i : Nat) :
    ((pageLims N).filter (fun lim => lim - LIMIT < i ∧ i ≤ lim)).length ≤ 1 := by
  unfold pageLims xrangeList
  rw [List.filter_map, List.length_map]
  apply length_filter_le_one
  · exact List.nodup_range _
  · intro a _ b _ hpa hpb
    simp only [Function.comp, LIMIT, decide_eq_true_eq] at hpa hpb
    omega

lemma pagesL_true_key_le_one (db : Store) (wsId N w i : Nat)
    (hvers : (db.versions.map (fun v => (v.ws, v.objId, v.ver))).Nodup) :
    ((countedOfPagesL db wsId true (pageLims N)).filter
      (fun c => c.ws = w ∧ c.v.objId = i)).length ≤ 1 := by
  rw [countedOfPagesL_filter_length]
  apply le_trans
    (List.sum_le_sum (fun lim _ => page_true_key_le_ind db wsId lim w i hvers))
  rw [sum_map_ite_eq_length_filter]
  exact pageLims_key_unique N i

lemma countedPairs_filter_length (db : Store) (exclude_ws : List Nat) (latest : Bool)
    (p : CV → Bool) :
    ∀ idx : List (Nat × WsEnt), ((countedPairs db exclude_ws latest idx).filter p).length
      = (idx.map (fun we => ((if we.1 ∈ exclude_ws then []
          else countedOfPagesL db we.1 latest (pageLims we.2.numObj)).filter p).length)).sum := by
  intro idx
  induction idx with
  | nil => simp [countedPairs]
  | cons we rest ih => simp [countedPairs, List.filter_append, ih]

lemma entry_true_key_le_ind (db : Store) (exclude_ws : List Nat) (we : Nat × WsEnt)
    (w i : Nat) (hvers : (db.versions.map (fun v => (v.ws, v.objId, v.ver))).Nodup) :
    ((if we.1 ∈ exclude_ws then []
        else countedOfPagesL db we.1 true (pageLims we.2.numObj)).filter
      (fun c => c.ws = w ∧ c.v.objId = i)).length ≤ if we.1 = w then 1 else 0 := by
  by_cases hex : we.1 ∈ exclude_ws
  · rw [if_pos hex]
    simp
  · rw [if_neg hex]
    by_cases hw : we.1 = w
    · rw [if_pos hw]
      subst hw
      exact pagesL_true_key_le_one db we.1 we.2.numObj we.1 i hvers
    · rw [if_neg hw]
      apply le_of_eq
      apply length_filter_eq_zero
      intro c hc hp
      exact hw ((countedOfPagesL_ws db we.1 true _ c hc) ▸ (of_decide_eq_true hp).1)

/-- Latest-only counting keeps exactly the all-versions counted versions
whose number equals their object's recorded version count. -/
lemma countedOfVers_true_eq_filter (i2o : Nat → Option ObjRec) (ws : Nat) :
    ∀ vl : List VerRec, countedOfVers true i2o ws vl
      = (countedOfVers false i2o ws vl).filter (fun c => c.v.ver = c.o.numver) := by
  intro vl
  induction vl with
  | nil => rfl
  | cons v rest ih =>
    simp only [countedOfVers, List.filterMap_cons] at ih ⊢
    cases hio : i2o v.objId with
    | none =>
      rw [show countedStep true i2o ws v = none from @countedStep_none true i2o ws v hio,
          show countedStep false i2o ws v = none from @countedStep_none false i2o ws v hio]
      exact ih
    | some o =>
      have ht := @countedStep_some true i2o ws v o hio
      have hf := @countedStep_some false i2o ws v o hio
      rw [if_neg (by simp)] at hf
      rw [ht, hf]
      by_cases hv : v.ver = o.numver
      · rw [if_neg (by simp [hv])]
        dsimp only
        rw [List.filter_cons, if_pos (by simp [hv])]
        exact congrArg (List.cons ⟨ws, o, v⟩) ih
      · rw [if_pos ⟨rfl, hv⟩]
        dsimp only
        rw [List.filter_cons, if_neg (by simp [hv])]
        exact ih

lemma countedOfPage_true_eq_filter (db : Store) (objs : List ObjRec) (a b : Nat) :
    countedOfPage db objs true a b
      = (countedOfPage db objs false a b).filter (fun c => c.v.ver = c.o.numver) := by
  unfold countedOfPage
  cases ho : objs.getLast? with
  | none => rfl
  | some olast =>
    dsimp only
    exact countedOfVers_true_eq_filter _ _ _

lemma countedOfPagesL_true_eq_filter (db : Store) (wsId : Nat) :
    ∀ lims : List Nat, countedOfPagesL db wsId true lims
      = (countedOfPagesL db wsId false lims).filter (fun c => c.v.ver = c.o.numver) := by
  intro lims
  induction lims with
  | nil => rfl
  | cons lim rest ih =>
    simp only [countedOfPagesL, List.filter_append]
    rw [countedOfPage_true_eq_filter, ih]

lemma countedPairs_true_eq_filter (db : Store) (exclude_ws : List Nat) :
    ∀ idx : List (Nat × WsEnt), countedPairs db exclude_ws true idx
      = (countedPairs db exclude_ws false idx).filter (fun c => c.v.ver = c.o.numver) := by
  intro idx
  induction idx with
  | nil => rfl
  | cons we rest ih =>
    simp only [countedPairs, List.filter_append]
    rw [ih]
    by_cases hex : we.1 ∈ exclude_ws
    · rw [if_pos hex, if_pos hex]
      rfl
    · rw [if_neg hex, if_neg hex, countedOfPagesL_true_eq_filter]

lemma mem_countedOfPage_latest_numver {db : Store} {objs : List ObjRec} {a b : Nat}
    {c : CV} (hc : c ∈ countedOfPage db objs true a b) : c.v.ver = c.o.numver := by
  unfold countedOfPage at hc
  cases ho : objs.getLast? with
  | none => rw [ho] at hc; exact absurd hc (by simp)
  | some olast =>
    rw [ho] at hc
    exact countedOfVers_latest_numver hc

/-- C2.  With pairwise-distinct workspace ids in the index and
pairwise-distinct `(ws, objId, ver)` version identifiers in the store:
in latest-only mode at most one version of any object is counted, every
counted version's number equals its object's recorded version count
(`numver`), and the per-object count never exceeds the all-versions mode
count on the same input. -/
theorem latest_only_counts_at_most_one (db : Store) (idx : List (Nat × WsEnt))
    (exclude_ws : List Nat)
    (hkeys : (idx.map Prod.fst).Nodup)
    (hvers : (db.versions.map (fun v => (v.ws, v.objId, v.ver))).Nodup) :
    (∀ w i, ((countedPairs db exclude_ws true idx).filter
        (fun c => c.ws = w ∧ c.v.objId = i)).length ≤ 1)
    ∧ (∀ c ∈ countedPairs db exclude_ws true idx, c.v.ver = c.o.numver)
    ∧ (∀ w i, ((countedPairs db exclude_ws true idx).filter
          (fun c => c.ws = w ∧ c.v.objId = i)).length
        ≤ ((countedPairs db exclude_ws false idx).filter
          (fun c => c.ws = w ∧ c.v.objId = i)).length) := by
  refine ⟨?_, ?_, ?_⟩
  · intro w i
    rw [countedPairs_filter_length]
    apply le_trans
      (List.sum_le_sum (fun we _ => entry_true_key_le_ind db exclude_ws we w i hvers))
    rw [sum_map_ite_eq_length_filter]
    exact length_filter_eq_key_le_one idx Prod.fst w hkeys
  · intro c hc
    obtain ⟨we, _, _, lim, _, hpage⟩ := mem_countedPairs hc
    exact mem_countedOfPage_latest_numver hpage
  · intro w i
    rw [countedPairs_true_eq_filter, List.filter_comm]
    exact List.length_filter_le _ _

theorem latest_only_counts_at_most_one_witness :
    ((countedPairs exDb [] true exIdx).filter
        (fun c => c.ws = 1 ∧ c.v.objId = 1)).length ≤ 1
    ∧ CV.mk 1 exObj1 exVer2 ∈ countedPairs exDb [] true exIdx
    ∧ (CV.mk 1 exObj1 exVer2).v.ver = (CV.mk 1 exObj1 exVer2).o.numver :=
  ⟨(latest_only_counts_at_most_one exDb exIdx [] (by decide) (by decide)).1 1 1,
   by decide,
   (latest_only_counts_at_most_one exDb exIdx [] (by decide) (by decide)).2.1 _ (by decide)⟩

theorem paging_ranges_and_bounds_witness :
    CV.mk 1 exObj1 exVer1 ∈ countedPairs exDb [] false exIdx
    ∧ (CV.mk 1 exObj1 exVer1).v.objId
        ≤ 10000 * (((entry_for exDb.acls exWs1).numObj + 9999) / 10000) :=
  ⟨by decide,
   (paging_ranges_and_bounds exDb exIdx [] false 1 (by decide)).2.2 _ (by decide)
     (entry_for exDb.acls exWs1) (by decide)⟩

lemma checkSection_missing_host (f : CfgFile) (ssec : List (String × CfgVal))
    (hsec : f.sections.lookup CFG_SECTION_SOURCE = some ssec)
    (hhost : ssec.lookup CFG_HOST = none ∨ ssec.lookup CFG_HOST = some (CfgVal.str "")) :
    checkSection f CFG_SECTION_SOURCE
      = .error (.exited (missingValueEvs f.fname CFG_SECTION_SOURCE CFG_HOST)) := by
  unfold checkSection
  rw [hsec]
  dsimp only
  have hreq : checkReqValues f.fname CFG_SECTION_SOURCE ssec [CFG_HOST, CFG_PORT, CFG_DB]
      = some (missingValueEvs f.fname CFG_SECTION_SOURCE CFG_HOST) := by
    cases hhost with
    | inl h => simp only [checkReqValues, h]
    | inr h => simp only [checkReqValues, h]
  rw [hreq]

lemma get_config_missing_host (f : CfgFile) (ssec : List (String × CfgVal))
    (hread : f.readable = true)
    (hsec : f.sections.lookup CFG_SECTION_SOURCE = some ssec)
    (hhost : ssec.lookup CFG_HOST = none ∨ ssec.lookup CFG_HOST = some (CfgVal.str "")) :
    get_config f
      = .error (.exited (missingValueEvs f.fname CFG_SECTION_SOURCE CFG_HOST)) := by
  unfold get_config
  rw [hread]
  rw [if_neg (by simp)]
  rw [checkSection_missing_host f ssec hsec hhost]

/-- C8.  When the source section of a readable configuration file lacks a
value for the `host` key (missing or empty), the program prints exactly one
message naming the section and key, exits with status 1, and never attempts
a store connection. -/
theorem missing_host_exits_before_connect (f : CfgFile) (ssec : List (String × CfgVal))
    (hread : f.readable = true)
    (hsec : f.sections.lookup CFG_SECTION_SOURCE = some ssec)
    (hhost : ssec.lookup CFG_HOST = none ∨ ssec.lookup CFG_HOST = some (CfgVal.str "")) :
    mainTrace f
      = [Ev.print ("Missing config value SourceMongo.host from file " ++ f.fname),
         Ev.exitCode 1]
    ∧ ∀ h, Ev.connect h ∉ mainTrace f := by
  have hgc := get_config_missing_host f ssec hread hsec hhost
  have htrace : mainTrace f
      = [Ev.print ("Missing config value SourceMongo.host from file " ++ f.fname),
         Ev.exitCode 1] := by
    unfold mainTrace
    rw [hgc]
    rfl
  refine ⟨htrace, fun h => ?_⟩
  rw [htrace]
  simp

/-- A config file whose source section has port and db but no host. -/
def exCfgMissingHost : CfgFile :=
  ⟨"usage.cfg", true,
   [("SourceMongo", [("port", .str "27017"), ("db", .str "workspace")]),
    ("TargetMongo", [("host", .str "h"), ("port", .str "1"), ("db", .str "d")])]⟩

theorem missing_host_exits_before_connect_witness :
    mainTrace exCfgMissingHost
      = [Ev.print "Missing config value SourceMongo.host from file usage.cfg",
         Ev.exitCode 1] :=
  ((missing_host_exits_before_connect exCfgMissingHost
      [("port", .str "27017"), ("db", .str "workspace")] rfl rfl (Or.inl rfl)).1).trans
    (by decide)

/-- A version that passes the skip tests leaves the state unchanged when it
is skipped. -/
lemma procVer_skip (incl_types list_types : Option (List String)) (latest : Bool)
    (i2o : Nat → Option ObjRec) (ws : Nat) (ownerpub : Option (String × Vis))
    (acc : AggState × Nat) (v : VerRec)
    (h : countedStep latest i2o ws v = none) :
    procVer incl_types list_types latest i2o ws ownerpub acc v = .ok acc := by
  unfold procVer
  split
  · rfl
  · rename_i o hio
    split
    · rfl
    · rename_i hl
      rw [countedStep_some hio, if_neg hl] at h
      exact absurd h (by simp)

/-- A counted version raises `TypeError` at the type-membership tests when
either configured type set is `None`. -/
lemma procVer_counted_none_types (incl_types list_types : Option (List String))
    (latest : Bool) (i2o : Nat → Option ObjRec) (ws : Nat) (wsop : String × Vis)
    (acc : AggState × Nat) (v : VerRec) (c : CV)
    (hcs : countedStep latest i2o ws v = some c)
    (hm : (month_of v).isSome)
    (herr : incl_types = none ∨ list_types = none) :
    procVer incl_types list_types latest i2o ws (some wsop) acc v
      = .error .typeError := by
  unfold procVer
  split
  · rename_i hio
    rw [countedStep_none hio] at hcs
    exact absurd hcs (by simp)
  · rename_i o hio
    split
    · rename_i hl
      rw [countedStep_some hio, if_pos hl] at hcs
      exact absurd hcs (by simp)
    · rename_i hl
      dsimp only
      obtain ⟨m, hm'⟩ := Option.isSome_iff_exists.mp hm
      rw [hm']
      cases herr with
      | inl h =>
        subst h
        rfl
      | inr h =>
        subst h
        cases incl_types with
        | none => rfl
        | some s => rfl

/-- The first counted version of a page aborts the version loop with a
`TypeError` when either type set is `None`. -/
lemma procVersList_none_raises (incl_types list_types : Option (List String))
    (latest : Bool) (i2o : Nat → Option ObjRec) (ws : Nat) (wsop : String × Vis)
    (herr : incl_types = none ∨ list_types = none) :
    ∀ (vl : List VerRec) (acc : AggState × Nat),
      countedOfVers latest i2o ws vl ≠ [] →
      (∀ v ∈ vl, (month_of v).isSome) →
      procVersList incl_types list_types latest i2o ws (some wsop) acc vl
        = .error .typeError := by
  intro vl
  induction vl with
  | nil => intro acc hne _; exact absurd rfl hne
  | cons v rest ih =>
    intro acc hne hmonth
    simp only [procVersList]
    cases hcs : countedStep latest i2o ws v with
    | none =>
      rw [procVer_skip incl_types list_types latest i2o ws (some wsop) acc v hcs]
      apply ih
      · intro hnil
        apply hne
        simp only [countedOfVers, List.filterMap_cons, hcs]
        exact hnil
      · exact fun v' hv' => hmonth v' (List.mem_cons_of_mem v hv')
    | some c =>
      rw [procVer_counted_none_types incl_types list_types latest i2o ws wsop acc v c
        hcs (hmonth v (List.mem_cons_self v rest)) herr]

lemma process_object_versions_none_raises (db : Store) (st : AggState)
    (objects : List ObjRec) (incl_types list_types : Option (List String))
    (start_id end_id : Nat) (latest : Bool)
    (herr : incl_types = none ∨ list_types = none)
    (hne : countedOfPage db objects latest start_id end_id ≠ [])
    (hop : ∀ olast, objects.getLast? = some olast →
      (lookupIndex st.workspaces olast.ws).isSome)
    (hmonth : ∀ v ∈ db.versions, (month_of v).isSome) :
    process_object_versions db st objects incl_types list_types start_id end_id latest
      = .error .typeError := by
  unfold process_object_versions
  cases ho : objects.getLast? with
  | none =>
    exfalso
    apply hne
    unfold countedOfPage
    rw [ho]
  | some olast =>
    have hpage : countedOfPage db objects latest start_id end_id
        = countedOfVers latest (id2obj objects) olast.ws
            (db.versions.filter
              (fun v => v.ws = olast.ws ∧ start_id < v.objId ∧ v.objId ≤ end_id)) := by
      unfold countedOfPage
      rw [ho]
    rw [hpage] at hne
    dsimp only
    obtain ⟨ent, hent⟩ := Option.isSome_iff_exists.mp (hop olast ho)
    rw [hent]
    apply procVersList_none_raises _ _ _ _ _ _ herr
    · exact hne
    · exact fun v hv => hmonth v (List.mem_filter.mp hv).1

/-- C10.  A types (or list-objects) key left empty makes
`process_config_string_list` store `None`, and the membership test on the
type prefix then raises a `TypeError` at the first counted version of any
nonempty page, aborting the run. -/
theorem none_type_sets_raise_type_error :
    (∀ (config_name : String) (sec : List (String × CfgVal)) (v : CfgVal),
        sec.lookup config_name = some v → cfgTruthy v = false →
        process_config_string_list config_name sec = .ok none)
    ∧ (∀ (db : Store) (st : AggState) (objects : List ObjRec)
        (list_types : Option (List String)) (start_id end_id : Nat) (latest : Bool),
        countedOfPage db objects latest start_id end_id ≠ [] →
        (∀ olast, objects.getLast? = some olast →
          (lookupIndex st.workspaces olast.ws).isSome) →
        (∀ v ∈ db.versions, (month_of v).isSome) →
        process_object_versions db st objects none list_types start_id end_id latest
          = .error .typeError)
    ∧ (∀ (db : Store) (st : AggState) (objects : List ObjRec)
        (incl_set : List String) (start_id end_id : Nat) (latest : Bool),
        countedOfPage db objects latest start_id end_id ≠ [] →
        (∀ olast, objects.getLast? = some olast →
          (lookupIndex st.workspaces olast.ws).isSome) →
        (∀ v ∈ db.versions, (month_of v).isSome) →
        process_object_versions db st objects (some incl_set) none start_id end_id latest
          = .error .typeError) := by
  refine ⟨?_, ?_, ?_⟩
  · intro config_name sec v hl ht
    unfold process_config_string_list
    rw [hl]
    dsimp only
    rw [if_neg (by simp [ht])]
  · intro db st objects list_types start_id end_id latest hne hop hmonth
    exact process_object_versions_none_raises db st objects none list_types start_id
      end_id latest (Or.inl rfl) hne hop hmonth
  · intro db st objects incl_set start_id end_id latest hne hop hmonth
    exact process_object_versions_none_raises db st objects (some incl_set) none start_id
      end_id latest (Or.inr rfl) hne hop hmonth

theorem none_type_sets_raise_type_error_witness :
    process_config_string_list "types" [("types", CfgVal.str "")] = .ok none
    ∧ process_object_versions exDb (initState exIdx) [exObj1] none (some []) 0 10000 false
        = .error .typeError :=
  ⟨none_type_sets_raise_type_error.1 "types" [("types", CfgVal.str "")]
     (CfgVal.str "") rfl rfl,
   none_type_sets_raise_type_error.2.1 exDb (initState exIdx) [exObj1] (some []) 0 10000
     false (by decide)
     (fun olast h => by
       have h2 : exObj1 = olast := Option.some.inj h
       rw [← h2]
       decide)
     (by decide)⟩

end WorkspaceStats
